import Mathlib

/-!
# Verification of the eakio file-encryption core

Shallow embedding of `src/crypto.rs` and `src/file.rs`: byte strings are
`List Nat` (each entry a byte value), files are byte lists, and the
stateful Rust code is embedded as explicit state passing.  The AEAD
primitive (`ring`'s AES-256-GCM) and HKDF-SHA256 live outside this
repository, so they are modelled from the spec as an idealized AEAD /
key-derivation pair satisfying the contract the spec states for them
(length law, round-trip, and authenticity: opening succeeds exactly on
genuine seal outputs under the same key and nonce).
-/

namespace Eakio

def TAG_LEN : Nat := 16

def NONCE_LEN : Nat := 12

def KEY_LEN : Nat := 32

def BLOCK_SIZE : Nat := 128 * 1024

def SALT_LEN : Nat := 32

def MAGIC : List Nat := [0x4B, 0x45, 0x4C, 0x53, 0x49]

def VERSION_1 : Nat := 0x01

def VERSION_2 : Nat := 0x02

def listMax (l : List Nat) : Nat := l.foldr max 0

def listVal (B : Nat) : List Nat → Nat
  | [] => 0
  | a :: l => a + B * listVal B l

def encodeL (l : List Nat) : Nat :=
  Nat.pair (listMax l + 1) (Nat.pair l.length (listVal (listMax l + 1) l))

/-- Modelled from the spec: `aead::seal_in_place` (ring, AES-256-GCM) on a
plaintext `p` appends a 16-byte authentication tag, giving a ciphertext of
`p.length + TAG_LEN` bytes; the tag commits to the key, the nonce and the
message, and AAD is always empty (spec 4.3).  The idealization stores an
injective commitment in the first tag slot. -/
def sealBytes (key nonce p : List Nat) : List Nat :=
  p ++ Nat.pair (encodeL key) (Nat.pair (encodeL nonce) (encodeL p)) :: List.replicate (TAG_LEN - 1) 0

/-- Modelled from the spec: `aead::open_in_place` (ring, AES-256-GCM)
succeeds exactly on genuine seal outputs under the same key and nonce,
returning the plaintext (the first `len - TAG_LEN` bytes); on any other
input it fails (spec 4.3: decryption either returns plaintext or fails). -/
def openBytes (key nonce c : List Nat) : Option (List Nat) :=
  if TAG_LEN ≤ c.length ∧ c = sealBytes key nonce (c.take (c.length - TAG_LEN))
  then some (c.take (c.length - TAG_LEN)) else none

/-- Modelled from the spec: `ring::hkdf::extract_and_expand` is HKDF with
SHA-256, extract-then-expand, with the salt as the HMAC key of the extract
step, `secret` as input keying material, expanding `out_len` bytes under
`info` (spec 4.2).  The idealization commits injectively to all three
inputs in the first output byte. -/
def extract_and_expand (salt secret info : List Nat) (out_len : Nat) : List Nat :=
  Nat.pair (encodeL salt) (Nat.pair (encodeL secret) (encodeL info)) :: List.replicate (out_len - 1) 0

/-- The `info` string of the key derivation (src/crypto.rs line 68). -/
def INFO_KEY : String := "hello kelsi"

def infoKeyBytes : List Nat := INFO_KEY.data.map Char.toNat

inductive Err where
  | GenSalt
  | SaltLenNotMatch (need : Nat)
  | OpenKey
  | SealKey
  | SealBufferTooSmall (need : Nat)
  | Open
  | Seal
  | MagicNotMatch
  | VersionNotSupport (v : Nat)
  | SizeMismatch (actual declared : Nat)
  | Eof
  deriving DecidableEq

structure Crypto where
  key : List Nat
  seal_nonce : List Nat
  open_nonce : List Nat
  deriving DecidableEq

/-- Model of `Crypto::new` (src/crypto.rs lines 84-114): derive the AEAD
key by HKDF from (secret, salt) with info `"hello kelsi"` and length
`CIPHER.key_len() = 32`; both nonce counters start at zero. -/
def Crypto.new (secret salt : List Nat) : Crypto :=
  { key := extract_and_expand salt secret infoKeyBytes KEY_LEN
    seal_nonce := List.replicate NONCE_LEN 0
    open_nonce := List.replicate NONCE_LEN 0 }

/-- Model of `incr_nonce` (src/crypto.rs lines 155-163): little-endian
increment with carry; each byte is a `u8`, so `overflowing_add 1` yields
`(b + 1) % 256` and carries exactly when the byte was `0xFF`. -/
def incr_nonce : List Nat → List Nat
  | [] => []
  | b :: rest =>
    if b + 1 < 256 then (b + 1) % 256 :: rest
    else (b + 1) % 256 :: incr_nonce rest

/-- Model of `Crypto::encrypt` (src/crypto.rs lines 121-141): seal the
first `in_len` bytes of `inout` in place (tag appended at
`[in_len, in_len+16)`), advance the seal nonce, return `in_len + tag_len`. -/
def Crypto.encrypt (c : Crypto) (inout : List Nat) (in_len : Nat) :
    Except Err (Crypto × List Nat × Nat) :=
  let out_len := in_len + TAG_LEN
  if inout.length < out_len then
    .error (.SealBufferTooSmall out_len)
  else
    let sealed := sealBytes c.key c.seal_nonce (inout.take in_len)
    .ok ({ c with seal_nonce := incr_nonce c.seal_nonce },
         sealed ++ inout.drop out_len, out_len)

/-- Model of `Crypto::decrypt` (src/crypto.rs lines 143-152): open the
whole slice in place; on success the plaintext occupies the first
`len - 16` bytes, the open nonce advances and `len - 16` is returned;
otherwise `Open`. -/
def Crypto.decrypt (c : Crypto) (inout : List Nat) :
    Except Err (Crypto × List Nat × Nat) :=
  match openBytes c.key c.open_nonce inout with
  | some plain =>
    .ok ({ c with open_nonce := incr_nonce c.open_nonce },
         plain ++ inout.drop plain.length, plain.length)
  | none => .error .Open

/-- Big-endian byte string of the low `k` bytes of `x`
(`BigEndian::write_u64` writes `beBytes 8 x` into the buffer head). -/
def beBytes : Nat → Nat → List Nat
  | 0, _ => []
  | k + 1, x => beBytes k (x / 256) ++ [x % 256]

/-- Model of `rdr.read_u64::<BigEndian>()` over the first 8 bytes of a
slice (src/file.rs lines 126-127). -/
def readU64BE (l : List Nat) : Nat :=
  (l.take 8).foldl (fun acc b => acc * 256 + b) 0

/-- Model of `crypto_data_size` (src/file.rs lines 167-178). -/
def crypto_data_size (in_size : Nat) : Nat :=
  let nblock := if in_size = 0 then 0 else (in_size - 1) / BLOCK_SIZE + 1
  let tag_size := nblock * TAG_LEN
  in_size + tag_size

/-- Model of `Read::read_exact` on an in-memory stream: consume exactly
`n` bytes, or fail with `UnexpectedEof` when fewer are available. -/
def readExact (n : Nat) (input : List Nat) : Option (List Nat × List Nat) :=
  if n ≤ input.length then some (input.take n, input.drop n) else none

/-- A `usize` subtraction `a - b`, which panics on underflow
(debug overflow check). -/
def checkedSub (a b : Nat) : Option Nat :=
  if b ≤ a then some (a - b) else none

/-- Outcome of `FileCrypt::decrypt`: normal return, error return carrying
the plaintext bytes already written to `dest`, or an arithmetic panic. -/
inductive DecResult where
  | ok (written : List Nat)
  | err (e : Err) (written : List Nat)
  | panic
  deriving DecidableEq

/-- The body loop of `FileCrypt::encrypt` (src/file.rs lines 76-93):
read `BLOCK_SIZE`-byte blocks into the buffer head and seal them; on the
final short read (`UnexpectedEof` leaves the remaining bytes in the
buffer head) seal `size` bytes unless `size == 0`.  Returns the
concatenation of the frames written. -/
def encBlocks (c : Crypto) (buffer input : List Nat) (size : Nat) :
    Except Err (List Nat) :=
  if BLOCK_SIZE ≤ input.length then
    let buf1 := input.take BLOCK_SIZE ++ buffer.drop BLOCK_SIZE
    match Crypto.encrypt c buf1 BLOCK_SIZE with
    | .error e => .error e
    | .ok (c', buf2, len) =>
      match encBlocks c' buf2 (input.drop BLOCK_SIZE) (size - BLOCK_SIZE) with
      | .error e => .error e
      | .ok rest => .ok (buf2.take len ++ rest)
  else
    let buf1 := input ++ buffer.drop input.length
    if size ≠ 0 then
      match Crypto.encrypt c buf1 size with
      | .error e => .error e
      | .ok (_, buf2, len) => .ok (buf2.take len)
    else
      .ok []
termination_by input.length
decreasing_by
  simp only [List.length_drop]
  have hbs : 0 < BLOCK_SIZE := by decide
  omega

/-- Model of `FileCrypt::encrypt` (src/file.rs lines 51-96), abstracted
over the contents of `self.buffer` at entry.  The fresh random salt drawn
by `Salt::new()` is passed as the `salt` parameter.  Returns the container
byte string written to `dest`. -/
def FileCrypt.encryptWith (secret salt src buffer : List Nat) : Except Err (List Nat) :=
  let crypto := Crypto.new secret salt
  let size := src.length
  let size_start := MAGIC.length + 1 + SALT_LEN
  let size_len := 8 + TAG_LEN
  let dest_size := size_start + size_len + crypto_data_size size
  let buf1 := beBytes 8 dest_size ++ buffer.drop 8
  match Crypto.encrypt crypto buf1 8 with
  | .error e => .error e
  | .ok (crypto, buf2, len) =>
    match encBlocks crypto buf2 src size with
    | .error e => .error e
    | .ok body => .ok (MAGIC ++ VERSION_2 :: salt ++ buf2.take len ++ body)

/-- Wrapper: `FileCrypt::encrypt` as called through `FileCrypt::new`,
whose working buffer is `vec![0u8; BLOCK_SIZE + tag_len]`. -/
def FileCrypt.encrypt (secret salt src : List Nat) : Except Err (List Nat) :=
  FileCrypt.encryptWith secret salt src (List.replicate (BLOCK_SIZE + TAG_LEN) 0)

/-- The body loop of `FileCrypt::decrypt` (src/file.rs lines 143-161):
read whole-buffer frames and open them, writing `buffer[..len]` after
each successful open and subtracting `buffer.len()` from `size`; on the
final short read open `buffer[..size]` unless `size == 0`. -/
def decBlocks (c : Crypto) (buffer input : List Nat) (size : Nat) (out : List Nat) :
    DecResult :=
  if hread : buffer.length ≤ input.length then
    match hdec : Crypto.decrypt c (input.take buffer.length ++ buffer.drop buffer.length) with
    | .error e => .err e out
    | .ok (c', buf2, len) =>
      let out' := out ++ buf2.take len
      match checkedSub size buf2.length with
      | none => .panic
      | some size' => decBlocks c' buf2 (input.drop buffer.length) size' out'
  else
    let buf1 := input ++ buffer.drop input.length
    if size ≠ 0 then
      match Crypto.decrypt c (buf1.take size) with
      | .error e => .err e out
      | .ok (_, buf2, len) => .ok (out ++ buf2.take len)
    else
      .ok out
termination_by input.length
decreasing_by
  simp only [List.length_drop]
  have htag : TAG_LEN ≤ (input.take buffer.length ++ buffer.drop buffer.length).length := by
    by_contra hcon
    unfold Crypto.decrypt at hdec
    rw [show openBytes c.key c.open_nonce
        (input.take buffer.length ++ buffer.drop buffer.length) = none from by
      unfold openBytes
      rw [if_neg (fun hand => hcon hand.1)]] at hdec
    cases hdec
  rw [List.length_append, List.length_take, List.length_drop] at htag
  have h16 : TAG_LEN = 16 := rfl
  omega

/-- Model of `FileCrypt::decrypt` (src/file.rs lines 98-164), abstracted
over the contents of `self.buffer` at entry.  `file` is the byte string
of the input file (`size` = its metadata length).  Returns the bytes
written to `dest` together with the outcome. -/
def FileCrypt.decryptWith (secret file buffer : List Nat) : DecResult :=
  let size := file.length
  match readExact MAGIC.length file with
  | none => .err .Eof []
  | some (m, r1) =>
    let buffer := m ++ buffer.drop MAGIC.length
    if buffer.take MAGIC.length ≠ MAGIC then .err .MagicNotMatch [] else
    match readExact 1 r1 with
    | none => .err .Eof []
    | some (vs, r2) =>
      let version := vs.headD 0
      if version ≠ VERSION_1 ∧ version ≠ VERSION_2 then
        .err (.VersionNotSupport version) []
      else
        match readExact SALT_LEN r2 with
        | none => .err .Eof []
        | some (sb, r3) =>
          let buffer := sb ++ buffer.drop SALT_LEN
          let saltBytes := buffer.take SALT_LEN
          if saltBytes.length ≠ SALT_LEN then .err (.SaltLenNotMatch SALT_LEN) [] else
          let crypto := Crypto.new secret saltBytes
          if version = VERSION_2 then
            let size_len := 8 + TAG_LEN
            match readExact size_len r3 with
            | none => .err .Eof []
            | some (srec, r4) =>
              let buffer := srec ++ buffer.drop size_len
              match Crypto.decrypt crypto (buffer.take size_len) with
              | .error e => .err e []
              | .ok (crypto, plain, _) =>
                let buffer := plain ++ buffer.drop plain.length
                let declared := readU64BE buffer
                if declared ≠ size then .err (.SizeMismatch size declared) [] else
                let header_len := MAGIC.length + 1 + SALT_LEN + 8 + TAG_LEN
                match checkedSub size header_len with
                | none => .panic
                | some size' => decBlocks crypto buffer r4 size' []
          else
            let header_len := MAGIC.length + 1 + SALT_LEN
            match checkedSub size header_len with
            | none => .panic
            | some size' => decBlocks crypto buffer r3 size' []

/-- Wrapper: `FileCrypt::decrypt` as called through `FileCrypt::new`,
whose working buffer is `vec![0u8; BLOCK_SIZE + tag_len]`. -/
def FileCrypt.decrypt (secret file : List Nat) : DecResult :=
  FileCrypt.decryptWith secret file (List.replicate (BLOCK_SIZE + TAG_LEN) 0)

/-- The frame stream produced by the encrypt loop: one sealed
`BLOCK_SIZE` frame per full block (advancing the nonce), then one sealed
short frame for a non-empty remainder. -/
def framesOf (key nonce src : List Nat) : List (List Nat) :=
  if BLOCK_SIZE ≤ src.length then
    sealBytes key nonce (src.take BLOCK_SIZE) ::
      framesOf key (incr_nonce nonce) (src.drop BLOCK_SIZE)
  else if src.length ≠ 0 then
    [sealBytes key nonce src]
  else
    []
termination_by src.length
decreasing_by
  simp only [List.length_drop]
  have hbs : 0 < BLOCK_SIZE := by decide
  omega

/-- The encrypted body as a pure function of key, nonce and source. -/
def bodyOf (key nonce src : List Nat) : List Nat :=
  (framesOf key nonce src).flatten

/-- The `dest_size` value `FileCrypt::encrypt` seals into the SIZE
record: header (38) + size record (24) + encrypted body. -/
def totalSize (n : Nat) : Nat :=
  MAGIC.length + 1 + SALT_LEN + (8 + TAG_LEN) + crypto_data_size n

/-- The SIZE record frame of a container. -/
def sizeRec (secret salt : List Nat) (n : Nat) : List Nat :=
  sealBytes (Crypto.new secret salt).key (List.replicate NONCE_LEN 0) (beBytes 8 (totalSize n))

/-- The working buffer contents at the point `FileCrypt::decrypt` enters
the SIZE record check, for a well-formed V2 header. -/
def hdrBuf (salt srec buffer : List Nat) : List Nat :=
  srec ++ (salt ++ (MAGIC ++ buffer.drop MAGIC.length).drop SALT_LEN).drop (8 + TAG_LEN)

/-- The working buffer contents entering the body loop: the in-place
opened SIZE-record slice followed by the rest of the buffer. -/
def v2BodyBuf (salt srec buffer plain : List Nat) : List Nat :=
  plain ++ srec.drop plain.length ++
    (hdrBuf salt srec buffer).drop (plain ++ srec.drop plain.length).length

/-- Little-endian integer value of a nonce byte string (byte 0 least
significant), as in the `test_incr_nonce` unit test. -/
def nonceVal : List Nat → Nat
  | [] => 0
  | b :: rest => b + 256 * nonceVal rest

/-- One `Crypto::encrypt` call viewed as a state transformer (the state
is unchanged when the call fails). -/
def encStep (buf : List Nat) (n : Nat) (c : Crypto) : Crypto :=
  match Crypto.encrypt c buf n with
  | .ok (c', _, _) => c'
  | .error _ => c

/-- Flip bit `i` of the byte at position `j`. -/
def flipAt (l : List Nat) (j i : Nat) : List Nat :=
  l.set j (l.getD j 0 ^^^ 2 ^ i)

/-! ## Theorems -/

theorem le_listMax {a : Nat} {l : List Nat} (h : a ∈ l) : a ≤ listMax l := by
  induction l with
  | nil => cases h
  | cons b t ih =>
    rcases List.mem_cons.mp h with h | h
    · subst h
      simp only [listMax, List.foldr]
      exact le_max_left _ _
    · have := ih h
      simp only [listMax, List.foldr] at this ⊢
      exact le_trans this (le_max_right _ _)

theorem listVal_inj {B : Nat} (hB : 0 < B) :
    ∀ l l' : List Nat, (∀ a ∈ l, a < B) → (∀ a ∈ l', a < B) →
      l.length = l'.length → listVal B l = listVal B l' → l = l' := by
  intro l
  induction l with
  | nil =>
    intro l' _ _ hlen _
    cases l' with
    | nil => rfl
    | cons a t => simp at hlen
  | cons a t ih =>
    intro l' hl hl' hlen hval
    cases l' with
    | nil => simp at hlen
    | cons a' t' =>
      have ha : a < B := hl a (by simp)
      have ha' : a' < B := hl' a' (by simp)
      simp only [listVal] at hval
      have hmod : a = a' := by
        have h1 : (a + B * listVal B t) % B = a := by
          rw [Nat.add_mul_mod_self_left, Nat.mod_eq_of_lt ha]
        have h2 : (a' + B * listVal B t') % B = a' := by
          rw [Nat.add_mul_mod_self_left, Nat.mod_eq_of_lt ha']
        rw [← h1, ← h2, hval]
      have hrest : listVal B t = listVal B t' := by
        have := hval
        rw [hmod] at this
        have hmul : B * listVal B t = B * listVal B t' := by omega
        exact Nat.eq_of_mul_eq_mul_left hB hmul
      have htl : t = t' :=
        ih t' (fun x hx => hl x (by simp [hx])) (fun x hx => hl' x (by simp [hx]))
          (by simpa using hlen) hrest
      rw [hmod, htl]

theorem encodeL_inj : Function.Injective encodeL := by
  intro l l' h
  unfold encodeL at h
  have h1 := Nat.pair_eq_pair.mp h
  obtain ⟨hB, h2⟩ := h1
  have h3 := Nat.pair_eq_pair.mp h2
  obtain ⟨hlen, hval⟩ := h3
  have hval' : listVal (listMax l + 1) l = listVal (listMax l + 1) l' := by
    rw [← hB] at hval
    exact hval
  refine listVal_inj (B := listMax l + 1) (Nat.succ_pos _) l l'
    (fun a ha => Nat.lt_succ_of_le (le_listMax ha))
    (fun a ha => by
      rw [hB]
      exact Nat.lt_succ_of_le (le_listMax ha))
    hlen hval'

@[simp] theorem sealBytes_length (key nonce p : List Nat) :
    (sealBytes key nonce p).length = p.length + TAG_LEN := by
  simp [sealBytes, TAG_LEN]

theorem openBytes_sealBytes (key nonce p : List Nat) :
    openBytes key nonce (sealBytes key nonce p) = some p := by
  have hlen : (sealBytes key nonce p).length = p.length + TAG_LEN := sealBytes_length key nonce p
  have htake : (sealBytes key nonce p).take ((sealBytes key nonce p).length - TAG_LEN) = p := by
    rw [hlen, Nat.add_sub_cancel]
    simp [sealBytes]
  unfold openBytes
  rw [htake, hlen]
  simp

/-- Authenticity of the ideal AEAD: a successful open means the input was
exactly a seal output under the same key and nonce. -/
theorem openBytes_some {key nonce c p : List Nat} (h : openBytes key nonce c = some p) :
    c = sealBytes key nonce p ∧ p = c.take (c.length - TAG_LEN) ∧ TAG_LEN ≤ c.length := by
  unfold openBytes at h
  split at h
  · rename_i hc
    obtain ⟨h1, h2⟩ := hc
    cases h
    exact ⟨h2.symm ▸ h2, rfl, h1⟩
  · cases h

theorem openBytes_length {key nonce c p : List Nat} (h : openBytes key nonce c = some p) :
    p.length = c.length - TAG_LEN := by
  obtain ⟨_, hp, hle⟩ := openBytes_some h
  rw [hp]
  simp

/-- The commitment slot of a seal output (position `p.length`). -/
theorem sealBytes_tag_head (key nonce p : List Nat) :
    (sealBytes key nonce p).drop p.length =
      Nat.pair (encodeL key) (Nat.pair (encodeL nonce) (encodeL p)) :: List.replicate (TAG_LEN - 1) 0 := by
  simp [sealBytes]

/-- Two seal outputs of equal plaintext length agree only if key, nonce
and plaintext agree. -/
theorem sealBytes_inj {key key' nonce nonce' p p' : List Nat}
    (hlen : p.length = p'.length)
    (h : sealBytes key nonce p = sealBytes key' nonce' p') :
    key = key' ∧ nonce = nonce' ∧ p = p' := by
  have hdrop : (sealBytes key nonce p).drop p.length = (sealBytes key' nonce' p').drop p'.length := by
    rw [← hlen, h]
  rw [sealBytes_tag_head, sealBytes_tag_head] at hdrop
  have hhead := List.head_eq_of_cons_eq hdrop
  have h1 := Nat.pair_eq_pair.mp hhead
  have h2 := Nat.pair_eq_pair.mp h1.2
  exact ⟨encodeL_inj h1.1, encodeL_inj h2.1, encodeL_inj h2.2⟩

@[simp] theorem extract_and_expand_length (salt secret info : List Nat) {n : Nat} (h : 0 < n) :
    (extract_and_expand salt secret info n).length = n := by
  simp [extract_and_expand]
  omega

theorem extract_and_expand_salt_inj {salt salt' secret info : List Nat} {n : Nat}
    (h : extract_and_expand salt secret info n = extract_and_expand salt' secret info n) :
    salt = salt' := by
  unfold extract_and_expand at h
  have hhead := List.head_eq_of_cons_eq h
  exact encodeL_inj (Nat.pair_eq_pair.mp hhead).1

theorem Crypto.decrypt_ok_iff {c : Crypto} {inout : List Nat} {r : Crypto × List Nat × Nat} :
    Crypto.decrypt c inout = .ok r ↔
      ∃ plain, openBytes c.key c.open_nonce inout = some plain ∧
        r = ({ c with open_nonce := incr_nonce c.open_nonce },
             plain ++ inout.drop plain.length, plain.length) := by
  unfold Crypto.decrypt
  cases h : openBytes c.key c.open_nonce inout with
  | some plain =>
    constructor
    · intro hr
      exact ⟨plain, rfl, by cases hr; rfl⟩
    · rintro ⟨p, hp, hr⟩
      cases hp
      rw [hr]
  | none =>
    constructor
    · intro hr
      cases hr
    · rintro ⟨p, hp, _⟩
      cases hp

theorem Crypto.decrypt_ok_tag {c : Crypto} {inout : List Nat} {r : Crypto × List Nat × Nat}
    (h : Crypto.decrypt c inout = .ok r) : TAG_LEN ≤ inout.length := by
  obtain ⟨plain, hp, _⟩ := Crypto.decrypt_ok_iff.mp h
  exact (openBytes_some hp).2.2

@[simp] theorem beBytes_length (k x : Nat) : (beBytes k x).length = k := by
  induction k generalizing x with
  | zero => rfl
  | succ n ih => simp [beBytes, ih]

theorem beBytes_lt (k x : Nat) : ∀ b ∈ beBytes k x, b < 256 := by
  induction k generalizing x with
  | zero => intro b hb; cases hb
  | succ n ih =>
    intro b hb
    simp only [beBytes, List.mem_append, List.mem_singleton] at hb
    rcases hb with hb | hb
    · exact ih _ b hb
    · subst hb
      exact Nat.mod_lt _ (by decide)

theorem mod_mul_decomp (x m n : Nat) : x % (m * n) = m * (x / m % n) + x % m := by
  conv_lhs => rw [← Nat.div_add_mod (x % (m * n)) m]
  rw [Nat.mod_mul_right_div_self, Nat.mod_mod_of_dvd x (Dvd.intro n rfl)]

theorem foldl_beBytes (k x : Nat) :
    (beBytes k x).foldl (fun acc b => acc * 256 + b) 0 = x % 256 ^ k := by
  induction k generalizing x with
  | zero => simp [beBytes, Nat.mod_one]
  | succ n ih =>
    rw [beBytes, List.foldl_append, ih]
    simp only [List.foldl_cons, List.foldl_nil]
    rw [Nat.pow_succ, Nat.mul_comm (256 ^ n) 256, mod_mul_decomp x 256 (256 ^ n)]
    ring

theorem readU64BE_beBytes (x : Nat) (rest : List Nat) :
    readU64BE (beBytes 8 x ++ rest) = x % 2 ^ 64 := by
  unfold readU64BE
  rw [List.take_append_of_le_length (by simp)]
  have h8 : (beBytes 8 x).take 8 = beBytes 8 x := by
    apply List.take_of_length_le
    simp
  rw [h8, foldl_beBytes]
  norm_num

theorem drop_append_ge (a b : List Nat) (n : Nat) (h : a.length ≤ n) :
    (a ++ b).drop n = b.drop (n - a.length) := by
  rw [List.drop_append_eq_append_drop, List.drop_eq_nil_of_le h, List.nil_append]

theorem take_set_of_le (l : List Nat) (j n v : Nat) (h : n ≤ j) :
    (l.set j v).take n = l.take n := by
  apply List.ext_getElem <;> simp
  intro i h1 h2
  rw [List.getElem_set_ne (by omega)]

theorem drop_set_of_lt (l : List Nat) (j n v : Nat) (h : j < n) :
    (l.set j v).drop n = l.drop n := by
  apply List.ext_getElem <;> simp
  intro i h1 h2
  rw [List.getElem_set_ne (by omega)]

theorem getD_set_self (l : List Nat) (j : Nat) (h : j < l.length) (v : Nat) :
    (l.set j v).getD j 0 = v := by
  simp [List.getD, List.getElem?_set_self, h]

theorem xor_pow_ne (x t : Nat) (h : t ≠ 0) : x ^^^ t ≠ x := by
  intro hc
  have hthis : x ^^^ (x ^^^ t) = x ^^^ x := by rw [hc]
  rw [← Nat.xor_assoc, Nat.xor_self, Nat.zero_xor] at hthis
  exact h hthis

theorem readExact_eq_some {n : Nat} {input : List Nat} (h : n ≤ input.length) :
    readExact n input = some (input.take n, input.drop n) := by
  simp [readExact, h]

theorem readExact_eq_none {n : Nat} {input : List Nat} (h : input.length < n) :
    readExact n input = none := by
  simp [readExact]
  omega

theorem Crypto.encrypt_eq_ok {c : Crypto} {inout : List Nat} {in_len : Nat}
    (h : in_len + TAG_LEN ≤ inout.length) :
    Crypto.encrypt c inout in_len =
      .ok ({ c with seal_nonce := incr_nonce c.seal_nonce },
           sealBytes c.key c.seal_nonce (inout.take in_len) ++ inout.drop (in_len + TAG_LEN),
           in_len + TAG_LEN) := by
  unfold Crypto.encrypt
  rw [if_neg (by omega)]

theorem Crypto.decrypt_eq_ok {c : Crypto} {inout plain : List Nat}
    (h : openBytes c.key c.open_nonce inout = some plain) :
    Crypto.decrypt c inout =
      .ok ({ c with open_nonce := incr_nonce c.open_nonce },
           plain ++ inout.drop plain.length, plain.length) := by
  unfold Crypto.decrypt
  rw [h]

theorem Crypto.decrypt_eq_err {c : Crypto} {inout : List Nat}
    (h : openBytes c.key c.open_nonce inout = none) :
    Crypto.decrypt c inout = .error .Open := by
  unfold Crypto.decrypt
  rw [h]

theorem framesOf_big {key nonce src : List Nat} (h : BLOCK_SIZE ≤ src.length) :
    framesOf key nonce src =
      sealBytes key nonce (src.take BLOCK_SIZE) ::
        framesOf key (incr_nonce nonce) (src.drop BLOCK_SIZE) := by
  rw [framesOf]
  rw [if_pos h]

theorem framesOf_small {key nonce src : List Nat} (h1 : src.length < BLOCK_SIZE)
    (h2 : src.length ≠ 0) :
    framesOf key nonce src = [sealBytes key nonce src] := by
  rw [framesOf]
  rw [if_neg (by omega), if_pos h2]

theorem framesOf_nil (key nonce : List Nat) : framesOf key nonce [] = [] := by
  rw [framesOf]
  simp [BLOCK_SIZE]

theorem bodyOf_big {key nonce src : List Nat} (h : BLOCK_SIZE ≤ src.length) :
    bodyOf key nonce src =
      sealBytes key nonce (src.take BLOCK_SIZE) ++
        bodyOf key (incr_nonce nonce) (src.drop BLOCK_SIZE) := by
  unfold bodyOf
  rw [framesOf_big h]
  simp

theorem bodyOf_small {key nonce src : List Nat} (h1 : src.length < BLOCK_SIZE)
    (h2 : src.length ≠ 0) :
    bodyOf key nonce src = sealBytes key nonce src := by
  unfold bodyOf
  rw [framesOf_small h1 h2]
  simp

theorem bodyOf_nil (key nonce : List Nat) : bodyOf key nonce [] = [] := by
  unfold bodyOf
  rw [framesOf_nil]
  rfl

theorem bodyOf_length_aux (n : Nat) : ∀ (src key nonce : List Nat), src.length ≤ n →
    (bodyOf key nonce src).length = crypto_data_size src.length := by
  induction n with
  | zero =>
    intro src key nonce hle
    have : src = [] := List.length_eq_zero.mp (by omega)
    subst this
    rw [bodyOf_nil]
    simp [crypto_data_size]
  | succ n ih =>
    intro src key nonce hle
    by_cases hbs : BLOCK_SIZE ≤ src.length
    · rw [bodyOf_big hbs, List.length_append, sealBytes_length,
        ih (src.drop BLOCK_SIZE) key (incr_nonce nonce)
          (by
            simp only [List.length_drop]
            simp only [BLOCK_SIZE] at hbs ⊢
            omega)]
      simp only [List.length_take, List.length_drop, Nat.min_eq_left hbs]
      unfold crypto_data_size
      have hbs0 : BLOCK_SIZE = 131072 := rfl
      have htag : TAG_LEN = 16 := rfl
      rcases Nat.eq_or_lt_of_le hbs with heq | hlt
      · rw [← heq]
        simp [hbs0, htag]
      · have h1 : src.length ≠ 0 := by omega
        have h2 : src.length - BLOCK_SIZE ≠ 0 := by omega
        rw [if_neg h1, if_neg h2]
        have hdiv : (src.length - 1) / BLOCK_SIZE = (src.length - BLOCK_SIZE - 1) / BLOCK_SIZE + 1 := by
          have h3 : src.length - 1 = (src.length - BLOCK_SIZE - 1) + 1 * BLOCK_SIZE := by omega
          rw [h3, Nat.add_mul_div_right _ _ (by omega : 0 < BLOCK_SIZE)]
        rw [hdiv]
        ring_nf
        omega
    · by_cases h0 : src.length = 0
      · have : src = [] := List.length_eq_zero.mp h0
        subst this
        rw [bodyOf_nil]
        simp [crypto_data_size]
      · rw [bodyOf_small (by omega) h0, sealBytes_length]
        unfold crypto_data_size
        rw [if_neg h0]
        have hdiv : (src.length - 1) / BLOCK_SIZE = 0 := Nat.div_eq_of_lt (by omega)
        rw [hdiv]
        ring

theorem bodyOf_length (src key nonce : List Nat) :
    (bodyOf key nonce src).length = crypto_data_size src.length :=
  bodyOf_length_aux src.length src key nonce le_rfl

theorem encBlocks_eq_bodyOf_aux (n : Nat) :
    ∀ (src : List Nat) (c : Crypto) (buffer : List Nat), src.length ≤ n →
      buffer.length = BLOCK_SIZE + TAG_LEN →
      encBlocks c buffer src src.length = .ok (bodyOf c.key c.seal_nonce src) := by
  induction n with
  | zero =>
    intro src c buffer hle hbuf
    have hnil : src = [] := List.length_eq_zero.mp (by omega)
    subst hnil
    rw [encBlocks]
    rw [if_neg (by simp [BLOCK_SIZE]), bodyOf_nil]
    simp
  | succ n ih =>
    intro src c buffer hle hbuf
    by_cases hbs : BLOCK_SIZE ≤ src.length
    · rw [encBlocks, if_pos hbs]
      dsimp only
      have hb1len : (src.take BLOCK_SIZE ++ buffer.drop BLOCK_SIZE).length =
          BLOCK_SIZE + TAG_LEN := by
        simp only [List.length_append, List.length_take, List.length_drop,
          Nat.min_eq_left hbs, hbuf]
        omega
      rw [Crypto.encrypt_eq_ok (by rw [hb1len])]
      dsimp only
      have htake : (src.take BLOCK_SIZE ++ buffer.drop BLOCK_SIZE).take BLOCK_SIZE =
          src.take BLOCK_SIZE := by
        rw [List.take_append_of_le_length (by simp [Nat.min_eq_left hbs]), List.take_take]
        simp
      rw [htake]
      have hdropnil : (src.take BLOCK_SIZE ++ buffer.drop BLOCK_SIZE).drop
          (BLOCK_SIZE + TAG_LEN) = [] := by
        apply List.drop_eq_nil_of_le
        rw [hb1len]
      rw [hdropnil, List.append_nil]
      have hlen2 : src.length - BLOCK_SIZE = (src.drop BLOCK_SIZE).length := by
        simp
      rw [hlen2]
      rw [ih (src.drop BLOCK_SIZE) _ _
        (by
          simp only [List.length_drop]
          simp only [BLOCK_SIZE] at hbs ⊢
          omega)
        (by rw [sealBytes_length]; simp [Nat.min_eq_left hbs])]
      dsimp only
      rw [List.take_of_length_le (by rw [sealBytes_length]; simp [Nat.min_eq_left hbs])]
      rw [bodyOf_big hbs]
    · rw [encBlocks, if_neg hbs]
      dsimp only
      push_neg at hbs
      by_cases h0 : src.length = 0
      · have hnil : src = [] := List.length_eq_zero.mp h0
        subst hnil
        rw [bodyOf_nil]
        simp
      · rw [if_pos h0]
        have hb1len : (src ++ buffer.drop src.length).length = BLOCK_SIZE + TAG_LEN := by
          simp only [List.length_append, List.length_drop, hbuf]
          omega
        rw [Crypto.encrypt_eq_ok (by rw [hb1len]; have ht : TAG_LEN = 16 := rfl; omega)]
        dsimp only
        have htake : (src ++ buffer.drop src.length).take src.length = src := by
          rw [List.take_left]
        rw [htake]
        rw [List.take_left' (by rw [sealBytes_length])]
        rw [bodyOf_small hbs h0]

theorem encBlocks_eq_bodyOf {src : List Nat} (c : Crypto) {buffer : List Nat}
    (hbuf : buffer.length = BLOCK_SIZE + TAG_LEN) :
    encBlocks c buffer src src.length = .ok (bodyOf c.key c.seal_nonce src) :=
  encBlocks_eq_bodyOf_aux src.length src c buffer le_rfl hbuf

theorem totalSize_eq (n : Nat) : totalSize n = 62 + crypto_data_size n := by
  simp [totalSize, MAGIC, SALT_LEN, TAG_LEN]

/-- Structure of the output of `FileCrypt::encrypt`: header, sealed SIZE
record (nonce 0), then the body frames (nonces 1, 2, ...). -/
theorem encryptWith_eq (secret salt src buffer : List Nat)
    (hbuf : buffer.length = BLOCK_SIZE + TAG_LEN) :
    FileCrypt.encryptWith secret salt src buffer =
      .ok (MAGIC ++ VERSION_2 :: salt ++ sizeRec secret salt src.length ++
        bodyOf (Crypto.new secret salt).key (incr_nonce (List.replicate NONCE_LEN 0)) src) := by
  unfold FileCrypt.encryptWith
  dsimp only
  have htag16 : TAG_LEN = 16 := rfl
  have hbs : BLOCK_SIZE = 131072 := rfl
  have hb1len : (beBytes 8
      (MAGIC.length + 1 + SALT_LEN + (8 + TAG_LEN) + crypto_data_size src.length) ++
      buffer.drop 8).length = BLOCK_SIZE + TAG_LEN := by
    rw [List.length_append, beBytes_length, List.length_drop, hbuf]
    omega
  rw [Crypto.encrypt_eq_ok (by rw [hb1len]; omega)]
  dsimp only
  rw [List.take_left' (by simp)]
  have hbuf2 : (sealBytes (Crypto.new secret salt).key (Crypto.new secret salt).seal_nonce
      (beBytes 8 (MAGIC.length + 1 + SALT_LEN + (8 + TAG_LEN) + crypto_data_size src.length)) ++
      (beBytes 8 (MAGIC.length + 1 + SALT_LEN + (8 + TAG_LEN) + crypto_data_size src.length) ++
        buffer.drop 8).drop (8 + TAG_LEN)).length = BLOCK_SIZE + TAG_LEN := by
    rw [List.length_append, sealBytes_length, beBytes_length, List.length_drop, hb1len]
    omega
  rw [encBlocks_eq_bodyOf _ hbuf2]
  dsimp only
  rw [List.take_left' (by rw [sealBytes_length, beBytes_length])]
  rfl

theorem encrypt_eq (secret salt src : List Nat) :
    FileCrypt.encrypt secret salt src =
      .ok (MAGIC ++ VERSION_2 :: salt ++ sizeRec secret salt src.length ++
        bodyOf (Crypto.new secret salt).key (incr_nonce (List.replicate NONCE_LEN 0)) src) := by
  unfold FileCrypt.encrypt
  exact encryptWith_eq secret salt src _ (by simp)

theorem container_length (secret salt src : List Nat) (hsalt : salt.length = SALT_LEN) :
    (MAGIC ++ VERSION_2 :: salt ++ sizeRec secret salt src.length ++
      bodyOf (Crypto.new secret salt).key (incr_nonce (List.replicate NONCE_LEN 0)) src).length =
      totalSize src.length := by
  rw [totalSize_eq]
  simp only [List.length_append, List.length_cons, sizeRec, sealBytes_length, beBytes_length,
    hsalt, bodyOf_length]
  have h1 : MAGIC.length = 5 := rfl
  have h2 : SALT_LEN = 32 := rfl
  have h3 : TAG_LEN = 16 := rfl
  omega

theorem hdrBuf_length (salt srec buffer : List Nat) (hsalt : salt.length = SALT_LEN)
    (hsrec : srec.length = 8 + TAG_LEN) (hbuf : buffer.length = BLOCK_SIZE + TAG_LEN) :
    (hdrBuf salt srec buffer).length = BLOCK_SIZE + TAG_LEN := by
  simp only [hdrBuf, List.length_append, List.length_drop, List.length_cons, hsalt, hsrec, hbuf]
  have h1 : MAGIC.length = 5 := rfl
  have h2 : SALT_LEN = 32 := rfl
  have h3 : TAG_LEN = 16 := rfl
  have h4 : BLOCK_SIZE = 131072 := rfl
  omega

/-- Right-nested view of a container: the encrypt output regrouped by
`List.append_assoc`. -/
theorem container_assoc (salt srec body : List Nat) :
    MAGIC ++ VERSION_2 :: salt ++ srec ++ body =
      MAGIC ++ (VERSION_2 :: (salt ++ (srec ++ body))) := by
  simp [List.append_assoc]

/-- Walking `FileCrypt::decrypt` through a well-formed V2 header: the
SIZE record is opened with nonce 0; on success the declared length is
compared with the file length, and only then does the body loop run. -/
theorem decryptWith_v2_eq (secret salt srec body buffer : List Nat)
    (hsalt : salt.length = SALT_LEN) (hsrec : srec.length = 8 + TAG_LEN)
    (hbuf : buffer.length = BLOCK_SIZE + TAG_LEN) :
    FileCrypt.decryptWith secret (MAGIC ++ (VERSION_2 :: (salt ++ (srec ++ body)))) buffer =
      match openBytes (Crypto.new secret salt).key (List.replicate NONCE_LEN 0) srec with
      | none => .err .Open []
      | some plain =>
        if readU64BE (v2BodyBuf salt srec buffer plain) ≠ 62 + body.length then
          .err (.SizeMismatch (62 + body.length) (readU64BE (v2BodyBuf salt srec buffer plain))) []
        else
          decBlocks
            { Crypto.new secret salt with open_nonce := incr_nonce (List.replicate NONCE_LEN 0) }
            (v2BodyBuf salt srec buffer plain) body body.length [] := by
  have h1 : MAGIC.length = 5 := rfl
  have h2 : SALT_LEN = 32 := rfl
  have h3 : TAG_LEN = 16 := rfl
  have hflen : (MAGIC ++ (VERSION_2 :: (salt ++ (srec ++ body)))).length = 62 + body.length := by
    simp only [List.length_append, List.length_cons, hsalt, hsrec, h1, h2, h3]
    omega
  unfold FileCrypt.decryptWith
  dsimp only
  rw [readExact_eq_some (by simp [h1])]
  dsimp only
  rw [List.take_left, List.drop_left]
  rw [if_neg (by simp [List.take_left])]
  rw [readExact_eq_some (by simp)]
  dsimp only
  have hv : (VERSION_2 :: (salt ++ (srec ++ body))).take 1 = [VERSION_2] := rfl
  have hvd : (VERSION_2 :: (salt ++ (srec ++ body))).drop 1 = salt ++ (srec ++ body) := rfl
  rw [hv, hvd]
  have hver : ([VERSION_2].headD 0) = VERSION_2 := rfl
  rw [hver]
  rw [if_neg (by simp [VERSION_1, VERSION_2])]
  rw [readExact_eq_some (by simp [hsalt])]
  dsimp only
  rw [List.take_left' hsalt, List.drop_left' hsalt]
  rw [List.take_left' hsalt]
  rw [if_neg (by rw [hsalt]; simp)]
  rw [if_pos rfl]
  rw [readExact_eq_some (by simp [hsrec])]
  dsimp only
  rw [List.take_left' hsrec, List.drop_left' hsrec]
  rw [List.take_left' hsrec]
  rw [hflen]
  cases hopen : openBytes (Crypto.new secret salt).key
      (Crypto.new secret salt).open_nonce srec with
  | none =>
    rw [Crypto.decrypt_eq_err hopen]
    have hopen' : openBytes (Crypto.new secret salt).key
        (List.replicate NONCE_LEN 0) srec = none := hopen
    rw [hopen']
  | some plain =>
    rw [Crypto.decrypt_eq_ok hopen]
    dsimp only
    have hopen' : openBytes (Crypto.new secret salt).key
        (List.replicate NONCE_LEN 0) srec = some plain := hopen
    rw [hopen']
    dsimp only
    have hshape : plain ++ List.drop plain.length srec ++
        List.drop (plain ++ List.drop plain.length srec).length
          (srec ++ List.drop (8 + TAG_LEN)
            (salt ++ List.drop SALT_LEN (MAGIC ++ List.drop MAGIC.length buffer))) =
        v2BodyBuf salt srec buffer plain := rfl
    rw [hshape]
    have hcs : checkedSub (62 + body.length) (MAGIC.length + 1 + SALT_LEN + 8 + TAG_LEN) =
        some body.length := by
      unfold checkedSub
      rw [if_pos (by rw [h1, h2, h3]; omega)]
      rw [h1, h2, h3]
      norm_num
    rw [hcs]
    rfl

theorem decBlocks_bodyOf_aux (n : Nat) :
    ∀ (src : List Nat) (c : Crypto) (bufD out : List Nat),
      src.length ≤ n → bufD.length = BLOCK_SIZE + TAG_LEN →
      decBlocks c bufD (bodyOf c.key c.open_nonce src) (bodyOf c.key c.open_nonce src).length out =
        .ok (out ++ src) := by
  have h3 : TAG_LEN = 16 := rfl
  have h4 : BLOCK_SIZE = 131072 := rfl
  induction n with
  | zero =>
    intro src c bufD out hle hbuf
    have hnil : src = [] := List.length_eq_zero.mp (by omega)
    subst hnil
    rw [bodyOf_nil, decBlocks]
    rw [dif_neg (by simp only [List.length_nil]; omega)]
    dsimp only
    rw [if_neg (by simp)]
    simp
  | succ n ih =>
    intro src c bufD out hle hbuf
    by_cases hbs : BLOCK_SIZE ≤ src.length
    · rw [bodyOf_big hbs]
      have htklen : (src.take BLOCK_SIZE).length = BLOCK_SIZE := by
        simp [Nat.min_eq_left hbs]
      have hflen : (sealBytes c.key c.open_nonce (src.take BLOCK_SIZE)).length =
          BLOCK_SIZE + TAG_LEN := by
        rw [sealBytes_length, htklen]
      rw [decBlocks]
      rw [dif_pos (by
        rw [hbuf, List.length_append, hflen]
        omega)]
      have htk : (sealBytes c.key c.open_nonce (src.take BLOCK_SIZE) ++
          bodyOf c.key (incr_nonce c.open_nonce) (src.drop BLOCK_SIZE)).take bufD.length =
          sealBytes c.key c.open_nonce (src.take BLOCK_SIZE) :=
        List.take_left' (by rw [hflen, hbuf])
      have hdr : (sealBytes c.key c.open_nonce (src.take BLOCK_SIZE) ++
          bodyOf c.key (incr_nonce c.open_nonce) (src.drop BLOCK_SIZE)).drop bufD.length =
          bodyOf c.key (incr_nonce c.open_nonce) (src.drop BLOCK_SIZE) :=
        List.drop_left' (by rw [hflen, hbuf])
      rw [htk, List.drop_length, List.append_nil]
      rw [Crypto.decrypt_eq_ok (openBytes_sealBytes _ _ _)]
      dsimp only
      rw [List.take_left]
      have hb2len : (src.take BLOCK_SIZE ++
          (sealBytes c.key c.open_nonce (src.take BLOCK_SIZE)).drop
            (src.take BLOCK_SIZE).length).length = BLOCK_SIZE + TAG_LEN := by
        rw [List.length_append, List.length_drop, sealBytes_length, htklen]
        omega
      have hcs : checkedSub (sealBytes c.key c.open_nonce (src.take BLOCK_SIZE) ++
          bodyOf c.key (incr_nonce c.open_nonce) (src.drop BLOCK_SIZE)).length
          (src.take BLOCK_SIZE ++
            (sealBytes c.key c.open_nonce (src.take BLOCK_SIZE)).drop
              (src.take BLOCK_SIZE).length).length =
          some (bodyOf c.key (incr_nonce c.open_nonce) (src.drop BLOCK_SIZE)).length := by
        rw [hb2len, List.length_append, hflen]
        unfold checkedSub
        rw [if_pos (by omega)]
        rw [Nat.add_sub_cancel_left]
      rw [hcs]
      dsimp only
      rw [hdr]
      have ihx := ih (src.drop BLOCK_SIZE)
        ({ c with open_nonce := incr_nonce c.open_nonce })
        (src.take BLOCK_SIZE ++
          (sealBytes c.key c.open_nonce (src.take BLOCK_SIZE)).drop (src.take BLOCK_SIZE).length)
        (out ++ src.take BLOCK_SIZE)
        (by
          simp only [List.length_drop]
          omega)
        hb2len
      dsimp only at ihx
      rw [ihx]
      rw [List.append_assoc, List.take_append_drop]
    · push_neg at hbs
      by_cases h0 : src.length = 0
      · have hnil : src = [] := List.length_eq_zero.mp h0
        subst hnil
        rw [bodyOf_nil, decBlocks]
        rw [dif_neg (by simp only [List.length_nil]; omega)]
        dsimp only
        rw [if_neg (by simp)]
        simp
      · rw [bodyOf_small hbs h0]
        rw [decBlocks]
        rw [dif_neg (by
          rw [hbuf, sealBytes_length]
          omega)]
        dsimp only
        rw [if_pos (by rw [sealBytes_length]; omega)]
        have htk : (sealBytes c.key c.open_nonce src ++
            bufD.drop (sealBytes c.key c.open_nonce src).length).take
            (sealBytes c.key c.open_nonce src).length = sealBytes c.key c.open_nonce src :=
          List.take_left _ _
        rw [htk]
        rw [Crypto.decrypt_eq_ok (openBytes_sealBytes _ _ _)]
        dsimp only
        rw [List.take_left]

theorem decBlocks_bodyOf (src : List Nat) (c : Crypto) (bufD out : List Nat)
    (hbuf : bufD.length = BLOCK_SIZE + TAG_LEN) :
    decBlocks c bufD (bodyOf c.key c.open_nonce src) (bodyOf c.key c.open_nonce src).length out =
      .ok (out ++ src) :=
  decBlocks_bodyOf_aux src.length src c bufD out le_rfl hbuf

theorem sizeRec_length (secret salt : List Nat) (n : Nat) :
    (sizeRec secret salt n).length = 8 + TAG_LEN := by
  rw [sizeRec, sealBytes_length, beBytes_length]

theorem v2BodyBuf_length (salt srec buffer plain : List Nat)
    (hsalt : salt.length = SALT_LEN) (hsrec : srec.length = 8 + TAG_LEN)
    (hbuf : buffer.length = BLOCK_SIZE + TAG_LEN) (hplain : plain.length = 8) :
    (v2BodyBuf salt srec buffer plain).length = BLOCK_SIZE + TAG_LEN := by
  have hh := hdrBuf_length salt srec buffer hsalt hsrec hbuf
  simp only [v2BodyBuf, List.length_append, List.length_drop, hh, hplain, hsrec]
  have h3 : TAG_LEN = 16 := rfl
  have h4 : BLOCK_SIZE = 131072 := rfl
  omega

theorem readU64BE_v2BodyBuf (salt srec buffer plain : List Nat) (hplain : plain.length = 8) :
    readU64BE (v2BodyBuf salt srec buffer plain) = readU64BE plain := by
  unfold readU64BE v2BodyBuf
  rw [List.take_append_of_le_length (by simp [hplain]),
    List.take_append_of_le_length (by omega),
    List.take_of_length_le (by omega)]

theorem readU64BE_beBytes' (x : Nat) : readU64BE (beBytes 8 x) = x % 2 ^ 64 := by
  have h := readU64BE_beBytes x []
  rw [List.append_nil] at h
  exact h

/-- Round-trip for fixed salt: decrypting an encrypt output under the
same secret recovers the source exactly. -/
theorem round_trip (secret salt src : List Nat) (hsalt : salt.length = SALT_LEN)
    (hsize : totalSize src.length < 2 ^ 64) :
    ∃ container, FileCrypt.encrypt secret salt src = .ok container ∧
      FileCrypt.decrypt secret container = .ok src := by
  refine ⟨_, encrypt_eq secret salt src, ?_⟩
  rw [container_assoc]
  unfold FileCrypt.decrypt
  rw [decryptWith_v2_eq secret salt _ _ _ hsalt (sizeRec_length secret salt src.length) (by simp)]
  rw [show sizeRec secret salt src.length = sealBytes (Crypto.new secret salt).key
    (List.replicate NONCE_LEN 0) (beBytes 8 (totalSize src.length)) from rfl]
  rw [openBytes_sealBytes]
  dsimp only
  rw [readU64BE_v2BodyBuf _ _ _ _ (by simp)]
  rw [readU64BE_beBytes', Nat.mod_eq_of_lt hsize]
  rw [if_neg (by
    rw [totalSize_eq, bodyOf_length]
    omega)]
  have hdb := decBlocks_bodyOf src
    ({ Crypto.new secret salt with open_nonce := incr_nonce (List.replicate NONCE_LEN 0) })
    (v2BodyBuf salt (sealBytes (Crypto.new secret salt).key (List.replicate NONCE_LEN 0)
        (beBytes 8 (totalSize src.length)))
      (List.replicate (BLOCK_SIZE + TAG_LEN) 0) (beBytes 8 (totalSize src.length)))
    []
    (v2BodyBuf_length _ _ _ _ hsalt (by rw [sealBytes_length, beBytes_length]) (by simp) (by simp))
  dsimp only at hdb
  rw [hdb]
  simp

theorem crypto_data_size_eq (n : Nat) :
    crypto_data_size n = n + (n + BLOCK_SIZE - 1) / BLOCK_SIZE * TAG_LEN := by
  unfold crypto_data_size
  by_cases h0 : n = 0
  · subst h0
    simp [BLOCK_SIZE, TAG_LEN]
  · rw [if_neg h0]
    have hbs : 0 < BLOCK_SIZE := by decide
    have h1 : n + BLOCK_SIZE - 1 = (n - 1) + BLOCK_SIZE := by omega
    rw [h1, Nat.add_div_right _ hbs]

/-- C1: round-trip.  For every plaintext `P` (the byte list `src`), every
secret and every 32-byte salt drawn by `Salt::new`, provided the container
size fits in a `u64`, `FileCrypt::encrypt` succeeds and
`FileCrypt::decrypt` of its output under the same secret returns exactly
the plaintext — every byte round-trips, for any length including 0,
multiples of the 131072-byte block, and lengths above it. -/
theorem claim_C1_round_trip (secret salt src : List Nat) (hsalt : salt.length = SALT_LEN)
    (hsize : totalSize src.length < 2 ^ 64) :
    ∃ container, FileCrypt.encrypt secret salt src = .ok container ∧
      FileCrypt.decrypt secret container = .ok src :=
  round_trip secret salt src hsalt hsize

theorem claim_C1_witness :
    ∃ container, FileCrypt.encrypt [104, 105] (List.replicate 32 0) [1, 2, 3] = .ok container ∧
      FileCrypt.decrypt [104, 105] container = .ok [1, 2, 3] :=
  claim_C1_round_trip [104, 105] (List.replicate 32 0) [1, 2, 3] (by decide) (by decide)

/-- C2: container size and SIZE_REC value.  For a source of `n` bytes the
container is exactly `38 + 24 + n + ceil(n / 131072) * 16` bytes (with
`62` for an empty source), and the big-endian u64 sealed inside the SIZE
record equals that same total on-disk length. -/
theorem claim_C2_container_size (secret salt src : List Nat) (hsalt : salt.length = SALT_LEN)
    (hsize : totalSize src.length < 2 ^ 64) :
    ∃ container, FileCrypt.encrypt secret salt src = .ok container ∧
      container.length =
        38 + 24 + src.length + (src.length + BLOCK_SIZE - 1) / BLOCK_SIZE * TAG_LEN ∧
      (src.length = 0 → container.length = 62) ∧
      ∃ szp, container = MAGIC ++ VERSION_2 :: salt ++
          sealBytes (Crypto.new secret salt).key (List.replicate NONCE_LEN 0) szp ++
          bodyOf (Crypto.new secret salt).key (incr_nonce (List.replicate NONCE_LEN 0)) src ∧
        szp = beBytes 8 container.length ∧ readU64BE szp = container.length := by
  refine ⟨_, encrypt_eq secret salt src, ?_, ?_, ?_⟩
  · rw [container_length secret salt src hsalt, totalSize_eq, crypto_data_size_eq]
    omega
  · intro h0
    rw [container_length secret salt src hsalt, totalSize_eq, h0]
    rfl
  · refine ⟨beBytes 8 (totalSize src.length), rfl, ?_, ?_⟩
    · rw [container_length secret salt src hsalt]
    · rw [container_length secret salt src hsalt, readU64BE_beBytes',
        Nat.mod_eq_of_lt hsize]

theorem claim_C2_witness :
    ∃ container, FileCrypt.encrypt [] (List.replicate 32 0) [] = .ok container ∧
      container.length = 38 + 24 + 0 + (0 + BLOCK_SIZE - 1) / BLOCK_SIZE * TAG_LEN ∧
      (0 = 0 → container.length = 62) ∧
      ∃ szp, container = MAGIC ++ VERSION_2 :: List.replicate 32 0 ++
          sealBytes (Crypto.new [] (List.replicate 32 0)).key (List.replicate NONCE_LEN 0) szp ++
          bodyOf (Crypto.new [] (List.replicate 32 0)).key
            (incr_nonce (List.replicate NONCE_LEN 0)) [] ∧
        szp = beBytes 8 container.length ∧ readU64BE szp = container.length :=
  claim_C2_container_size [] (List.replicate 32 0) [] (by decide) (by decide)

/-- C7: key derivation.  `Crypto::new` installs as the AEAD key exactly
the 32-byte HKDF-SHA256 extract-then-expand output with the salt as the
HMAC key of the extract step, the secret as input keying material, and
the ASCII bytes of `"hello kelsi"` as the expand info. -/
theorem claim_C7_key_derivation (secret salt : List Nat) :
    (Crypto.new secret salt).key = extract_and_expand salt secret infoKeyBytes KEY_LEN ∧
    KEY_LEN = 32 ∧
    infoKeyBytes = [104, 101, 108, 108, 111, 32, 107, 101, 108, 115, 105] ∧
    (Crypto.new secret salt).key.length = 32 := by
  refine ⟨rfl, ?_, ?_, ?_⟩
  · rfl
  · decide
  · show (extract_and_expand salt secret infoKeyBytes KEY_LEN).length = 32
    rw [extract_and_expand_length _ _ _ (by decide)]
    rfl

/-- C8: `Crypto::encrypt` buffer precondition.  If the buffer is shorter
than `in_len + 16` the call fails with `SealBufferTooSmall (in_len + 16)`
and seals nothing; otherwise it succeeds, sealing in place and returning
exactly `in_len + 16`. -/
theorem claim_C8_encrypt_precondition (c : Crypto) (buf : List Nat) (in_len : Nat) :
    (buf.length < in_len + TAG_LEN →
      Crypto.encrypt c buf in_len = .error (.SealBufferTooSmall (in_len + TAG_LEN))) ∧
    (in_len + TAG_LEN ≤ buf.length →
      Crypto.encrypt c buf in_len =
        .ok ({ c with seal_nonce := incr_nonce c.seal_nonce },
             sealBytes c.key c.seal_nonce (buf.take in_len) ++ buf.drop (in_len + TAG_LEN),
             in_len + TAG_LEN)) := by
  constructor
  · intro h
    unfold Crypto.encrypt
    rw [if_pos h]
  · intro h
    exact Crypto.encrypt_eq_ok h

theorem claim_C8_witness :
    Crypto.encrypt (Crypto.new [] []) (List.replicate 10 0) 8 =
        .error (.SealBufferTooSmall (8 + TAG_LEN)) ∧
    Crypto.encrypt (Crypto.new [] []) (List.replicate 30 0) 8 =
      .ok ({ Crypto.new [] [] with seal_nonce := incr_nonce (Crypto.new [] []).seal_nonce },
           sealBytes (Crypto.new [] []).key (Crypto.new [] []).seal_nonce
             ((List.replicate 30 0).take 8) ++ (List.replicate 30 0).drop (8 + TAG_LEN),
           8 + TAG_LEN) :=
  ⟨(claim_C8_encrypt_precondition (Crypto.new [] []) (List.replicate 10 0) 8).1 (by decide),
   (claim_C8_encrypt_precondition (Crypto.new [] []) (List.replicate 30 0) 8).2 (by decide)⟩

theorem Crypto.encrypt_ok_elim {c : Crypto} {inout : List Nat} {in_len : Nat}
    {r : Crypto × List Nat × Nat} (h : Crypto.encrypt c inout in_len = .ok r) :
    in_len + TAG_LEN ≤ inout.length ∧
    r = ({ c with seal_nonce := incr_nonce c.seal_nonce },
         sealBytes c.key c.seal_nonce (inout.take in_len) ++ inout.drop (in_len + TAG_LEN),
         in_len + TAG_LEN) := by
  unfold Crypto.encrypt at h
  dsimp only at h
  split at h
  · cases h
  · rename_i hlen
    refine ⟨by omega, ?_⟩
    cases h
    rfl

/-- C9: frame effect of `Crypto::encrypt`.  A successful call modifies
only the first `in_len + 16` bytes of `inout`: the output buffer has the
same length, and every byte at positions `in_len + 16` and beyond is
unchanged. -/
theorem claim_C9_frame_effect (c : Crypto) (inout : List Nat) (in_len : Nat)
    (c' : Crypto) (out : List Nat) (len : Nat)
    (h : Crypto.encrypt c inout in_len = .ok (c', out, len)) :
    out.length = inout.length ∧
    ∀ i, in_len + TAG_LEN ≤ i → out.getD i 0 = inout.getD i 0 := by
  obtain ⟨hle, hr⟩ := Crypto.encrypt_ok_elim h
  have hout : out = sealBytes c.key c.seal_nonce (inout.take in_len) ++
      inout.drop (in_len + TAG_LEN) := by
    have := congrArg (fun t => t.2.1) hr
    exact this
  have hslen : (sealBytes c.key c.seal_nonce (inout.take in_len)).length = in_len + TAG_LEN := by
    rw [sealBytes_length, List.length_take, Nat.min_eq_left (by omega)]
  constructor
  · rw [hout, List.length_append, hslen, List.length_drop]
    omega
  · intro i hi
    rw [hout]
    rw [List.getD_eq_getElem?_getD, List.getD_eq_getElem?_getD]
    rw [List.getElem?_append_right (by rw [hslen]; omega)]
    rw [List.getElem?_drop, hslen]
    congr 2
    omega

theorem claim_C9_witness :
    (Crypto.encrypt (Crypto.new [] []) (List.replicate 30 7) 4 =
      .ok ({ Crypto.new [] [] with seal_nonce := incr_nonce (Crypto.new [] []).seal_nonce },
           sealBytes (Crypto.new [] []).key (Crypto.new [] []).seal_nonce
             ((List.replicate 30 7).take 4) ++ (List.replicate 30 7).drop (4 + TAG_LEN),
           4 + TAG_LEN)) ∧
    ((sealBytes (Crypto.new [] []).key (Crypto.new [] []).seal_nonce
        ((List.replicate 30 7).take 4) ++ (List.replicate 30 7).drop (4 + TAG_LEN)).length =
      (List.replicate 30 (7:Nat)).length ∧
    ∀ i, 4 + TAG_LEN ≤ i →
      (sealBytes (Crypto.new [] []).key (Crypto.new [] []).seal_nonce
        ((List.replicate 30 7).take 4) ++
          (List.replicate 30 7).drop (4 + TAG_LEN)).getD i 0 =
        (List.replicate 30 7).getD i 0) := by
  have henc := @Crypto.encrypt_eq_ok (Crypto.new [] []) (List.replicate 30 7) 4 (by decide)
  exact ⟨henc, claim_C9_frame_effect (Crypto.new [] []) (List.replicate 30 7) 4 _ _ _ henc⟩

theorem incr_nonce_length (nonce : List Nat) : (incr_nonce nonce).length = nonce.length := by
  induction nonce with
  | nil => rfl
  | cons b rest ih =>
    unfold incr_nonce
    split
    · simp
    · simp [ih]

theorem incr_nonce_bytes {nonce : List Nat} (h : ∀ b ∈ nonce, b < 256) :
    ∀ b ∈ incr_nonce nonce, b < 256 := by
  induction nonce with
  | nil => intro b hb; cases hb
  | cons a rest ih =>
    unfold incr_nonce
    split
    · intro b hb
      rcases List.mem_cons.mp hb with hb | hb
      · subst hb
        exact Nat.mod_lt _ (by decide)
      · exact h b (by simp [hb])
    · intro b hb
      rcases List.mem_cons.mp hb with hb | hb
      · subst hb
        exact Nat.mod_lt _ (by decide)
      · exact ih (fun x hx => h x (by simp [hx])) b hb

theorem nonceVal_lt {l : List Nat} (h : ∀ b ∈ l, b < 256) :
    nonceVal l < 2 ^ (8 * l.length) := by
  induction l with
  | nil => simp [nonceVal]
  | cons b rest ih =>
    have hb : b < 256 := h b (by simp)
    have hr := ih (fun x hx => h x (by simp [hx]))
    simp only [nonceVal, List.length_cons]
    have hpow : 2 ^ (8 * (rest.length + 1)) = 256 * 2 ^ (8 * rest.length) := by
      rw [Nat.mul_add, Nat.pow_add]
      ring
    rw [hpow]
    omega

/-- Incrementing adds one to the little-endian value, wrapping modulo
`2 ^ (8 * len)`. -/
theorem incr_nonce_val {nonce : List Nat} (h : ∀ b ∈ nonce, b < 256) :
    nonceVal (incr_nonce nonce) = (nonceVal nonce + 1) % 2 ^ (8 * nonce.length) := by
  induction nonce with
  | nil => rfl
  | cons b rest ih =>
    have hb : b < 256 := h b (by simp)
    have hrest : ∀ x ∈ rest, x < 256 := fun x hx => h x (by simp [hx])
    have hv := nonceVal_lt hrest
    have hpow : 2 ^ (8 * (rest.length + 1)) = 256 * 2 ^ (8 * rest.length) := by
      rw [Nat.mul_add, Nat.pow_add]
      ring
    unfold incr_nonce
    split
    · rename_i hlt
      simp only [nonceVal, List.length_cons, hpow]
      rw [Nat.mod_eq_of_lt hlt]
      rw [Nat.mod_eq_of_lt (by omega)]
      omega
    · rename_i hge
      have hb255 : b = 255 := by omega
      simp only [nonceVal, List.length_cons, hpow]
      rw [ih hrest]
      subst hb255
      have h256 : (255 + 1) % 256 = 0 := by decide
      rw [h256]
      have hshape : 255 + 256 * nonceVal rest + 1 = 256 * (nonceVal rest + 1) := by ring
      rw [hshape, Nat.mul_mod_mul_left]
      omega

theorem encStep_seal_nonce {buf : List Nat} {n : Nat} (c : Crypto)
    (hbuf : n + TAG_LEN ≤ buf.length) :
    (encStep buf n c).seal_nonce = incr_nonce c.seal_nonce := by
  unfold encStep
  rw [Crypto.encrypt_eq_ok hbuf]

theorem iterate_encStep (secret salt buf : List Nat) (n : Nat)
    (hbuf : n + TAG_LEN ≤ buf.length) :
    ∀ K : Nat,
      ((encStep buf n)^[K] (Crypto.new secret salt)).seal_nonce.length = NONCE_LEN ∧
      (∀ b ∈ ((encStep buf n)^[K] (Crypto.new secret salt)).seal_nonce, b < 256) ∧
      nonceVal ((encStep buf n)^[K] (Crypto.new secret salt)).seal_nonce = K % 2 ^ 96 := by
  intro K
  induction K with
  | zero =>
    refine ⟨by simp [Crypto.new, NONCE_LEN], ?_, ?_⟩
    · intro b hb
      simp only [Function.iterate_zero_apply, Crypto.new] at hb
      have := List.eq_of_mem_replicate hb
      omega
    · simp only [Function.iterate_zero_apply, Crypto.new]
      show nonceVal (List.replicate NONCE_LEN 0) = 0 % 2 ^ 96
      decide
  | succ K ih =>
    obtain ⟨ihlen, ihbytes, ihval⟩ := ih
    rw [Function.iterate_succ_apply']
    rw [encStep_seal_nonce _ hbuf]
    refine ⟨by rw [incr_nonce_length, ihlen], incr_nonce_bytes ihbytes, ?_⟩
    rw [incr_nonce_val ihbytes, ihval, ihlen]
    show (K % 2 ^ 96 + 1) % 2 ^ (8 * NONCE_LEN) = (K + 1) % 2 ^ 96
    have hnl : 8 * NONCE_LEN = 96 := rfl
    rw [hnl, Nat.mod_add_mod]

/-- C5: nonce counter semantics.  `incr_nonce` adds 1 to the nonce in
little-endian order with carry propagation, wrapping modulo `2^(8*len)`
(so modulo `2^96` for the 12-byte nonce); and after `K < 2^96` successful
`Crypto::encrypt` calls on a freshly constructed engine the seal nonce,
read as a little-endian integer, equals `K`. -/
theorem claim_C5_nonce_counter (nonce : List Nat) (hbytes : ∀ b ∈ nonce, b < 256)
    (secret salt buf : List Nat) (n K : Nat)
    (hbuf : n + TAG_LEN ≤ buf.length) (hK : K < 2 ^ 96) :
    nonceVal (incr_nonce nonce) = (nonceVal nonce + 1) % 2 ^ (8 * nonce.length) ∧
    nonceVal ((encStep buf n)^[K] (Crypto.new secret salt)).seal_nonce = K := by
  refine ⟨incr_nonce_val hbytes, ?_⟩
  rw [(iterate_encStep secret salt buf n hbuf K).2.2, Nat.mod_eq_of_lt hK]

theorem claim_C5_witness :
    nonceVal (incr_nonce [255, 255, 0]) = (nonceVal [255, 255, 0] + 1) % 2 ^ (8 * 3) ∧
    nonceVal ((encStep (List.replicate 40 0) 8)^[5] (Crypto.new [] [])).seal_nonce = 5 := by
  have h := claim_C5_nonce_counter [255, 255, 0] (by decide)
    [] [] (List.replicate 40 0) 8 5 (by decide) (by decide)
  exact ⟨h.1, h.2⟩

theorem framesOf_map_length_aux (n : Nat) :
    ∀ (src key nonce : List Nat), src.length ≤ n →
      (framesOf key nonce src).map List.length =
        List.replicate (src.length / BLOCK_SIZE) (BLOCK_SIZE + TAG_LEN) ++
          (if src.length % BLOCK_SIZE ≠ 0 then [src.length % BLOCK_SIZE + TAG_LEN] else []) := by
  have hbs : 0 < BLOCK_SIZE := by decide
  induction n with
  | zero =>
    intro src key nonce hle
    have hnil : src = [] := List.length_eq_zero.mp (by omega)
    subst hnil
    rw [framesOf_nil]
    simp
  | succ n ih =>
    intro src key nonce hle
    by_cases hbig : BLOCK_SIZE ≤ src.length
    · rw [framesOf_big hbig]
      rw [List.map_cons, sealBytes_length, List.length_take, Nat.min_eq_left hbig]
      rw [ih (src.drop BLOCK_SIZE) key (incr_nonce nonce)
        (by simp only [List.length_drop]; omega)]
      rw [List.length_drop]
      rw [Nat.div_eq_sub_div hbs hbig, Nat.mod_eq_sub_mod hbig]
      rw [List.replicate_succ, List.cons_append]
    · push_neg at hbig
      by_cases h0 : src.length = 0
      · have hnil : src = [] := List.length_eq_zero.mp h0
        subst hnil
        rw [framesOf_nil]
        simp
      · rw [framesOf_small hbig h0]
        rw [Nat.div_eq_of_lt hbig, Nat.mod_eq_of_lt hbig]
        simp [h0]

theorem framesOf_map_length (src key nonce : List Nat) :
    (framesOf key nonce src).map List.length =
      List.replicate (src.length / BLOCK_SIZE) (BLOCK_SIZE + TAG_LEN) ++
        (if src.length % BLOCK_SIZE ≠ 0 then [src.length % BLOCK_SIZE + TAG_LEN] else []) :=
  framesOf_map_length_aux src.length src key nonce le_rfl

/-- C6: final-frame rule.  The body `FileCrypt::encrypt` writes after the
SIZE record is the concatenation of `floor(n / 131072)` full frames of
`131088` bytes each, followed by one short frame of `(n mod 131072) + 16`
bytes exactly when `n mod 131072 > 0`; for an exact multiple of the block
size (including `n = 0`) no tag-only terminal frame is written. -/
theorem claim_C6_final_frame (secret salt src : List Nat) :
    ∃ frames : List (List Nat),
      FileCrypt.encrypt secret salt src =
        .ok (MAGIC ++ VERSION_2 :: salt ++ sizeRec secret salt src.length ++ frames.flatten) ∧
      frames.map List.length =
        List.replicate (src.length / BLOCK_SIZE) (BLOCK_SIZE + TAG_LEN) ++
          (if src.length % BLOCK_SIZE ≠ 0 then [src.length % BLOCK_SIZE + TAG_LEN] else []) := by
  refine ⟨framesOf (Crypto.new secret salt).key (incr_nonce (List.replicate NONCE_LEN 0)) src,
    ?_, framesOf_map_length src _ _⟩
  rw [encrypt_eq]
  rfl

theorem readExact_some_elim {n : Nat} {input : List Nat} {p : List Nat × List Nat}
    (h : readExact n input = some p) :
    n ≤ input.length ∧ p = (input.take n, input.drop n) := by
  unfold readExact at h
  split at h
  · rename_i hle
    cases h
    exact ⟨hle, rfl⟩
  · cases h

theorem decBlocks_no_panic_aux (n : Nat) :
    ∀ (input : List Nat) (c : Crypto) (buffer out : List Nat), input.length ≤ n →
      decBlocks c buffer input input.length out ≠ .panic := by
  induction n with
  | zero =>
    intro input c buffer out hle
    have hnil : input = [] := List.length_eq_zero.mp (by omega)
    subst hnil
    rw [decBlocks]
    by_cases hread : buffer.length ≤ ([] : List Nat).length
    · rw [dif_pos hread]
      have hbz : buffer.length = 0 := by simpa using hread
      have hnil2 : buffer = [] := List.length_eq_zero.mp hbz
      subst hnil2
      intro hcontra
      rw [Crypto.decrypt_eq_err (by
        unfold openBytes
        rw [if_neg (by simp [TAG_LEN])])] at hcontra
      simp at hcontra
    · rw [dif_neg hread]
      dsimp only
      rw [if_neg (by simp)]
      simp
  | succ n ih =>
    intro input c buffer out hle
    rw [decBlocks]
    by_cases hread : buffer.length ≤ input.length
    · rw [dif_pos hread]
      cases hdec : Crypto.decrypt c (input.take buffer.length ++ buffer.drop buffer.length) with
      | error e => simp
      | ok r =>
        obtain ⟨c', buf2, len⟩ := r
        dsimp only
        have hb1len : (input.take buffer.length ++ buffer.drop buffer.length).length =
            buffer.length := by
          rw [List.length_append, List.length_take, List.length_drop,
            Nat.min_eq_left hread]
          omega
        obtain ⟨plain, hplain, hr⟩ := Crypto.decrypt_ok_iff.mp hdec
        have htag := (openBytes_some hplain).2.2
        have hplen := openBytes_length hplain
        have hbuf2 : buf2 = plain ++
            (input.take buffer.length ++ buffer.drop buffer.length).drop plain.length := by
          have := congrArg (fun t => t.2.1) hr
          exact this
        have hbuf2len : buf2.length = buffer.length := by
          rw [hbuf2, List.length_append, List.length_drop, hb1len, hplen, hb1len]
          omega
        have hcs : checkedSub input.length buf2.length = some (input.length - buffer.length) := by
          unfold checkedSub
          rw [if_pos (by rw [hbuf2len]; exact hread), hbuf2len]
        rw [hcs]
        have htag16 : TAG_LEN = 16 := rfl
        have hlen2 : input.length - buffer.length = (input.drop buffer.length).length := by
          simp
        rw [hlen2]
        exact ih (input.drop buffer.length) c' buf2 (out ++ buf2.take len)
          (by simp only [List.length_drop]; rw [hb1len] at htag; omega)
    · rw [dif_neg hread]
      dsimp only
      by_cases h0 : input.length ≠ 0
      · rw [if_pos h0]
        cases Crypto.decrypt c ((input ++ buffer.drop input.length).take input.length) with
        | error e => simp
        | ok r =>
          obtain ⟨c', buf2, len⟩ := r
          simp
      · rw [if_neg h0]
        simp

theorem decBlocks_no_panic (input : List Nat) (c : Crypto) (buffer out : List Nat) :
    decBlocks c buffer input input.length out ≠ .panic :=
  decBlocks_no_panic_aux input.length input c buffer out le_rfl

theorem decryptWith_no_panic (secret file buffer : List Nat) :
    FileCrypt.decryptWith secret file buffer ≠ .panic := by
  unfold FileCrypt.decryptWith
  dsimp only
  cases h1 : readExact MAGIC.length file with
  | none => simp
  | some p1 =>
    obtain ⟨m, r1⟩ := p1
    obtain ⟨hle1, hp1⟩ := readExact_some_elim h1
    have hr1 : r1 = file.drop MAGIC.length := congrArg Prod.snd hp1
    dsimp only
    split
    · simp
    · cases h2 : readExact 1 r1 with
      | none => simp
      | some p2 =>
        obtain ⟨vs, r2⟩ := p2
        obtain ⟨hle2, hp2⟩ := readExact_some_elim h2
        have hr2 : r2 = r1.drop 1 := congrArg Prod.snd hp2
        dsimp only
        split
        · simp
        · cases h3 : readExact SALT_LEN r2 with
          | none => simp
          | some p3 =>
            obtain ⟨sb, r3⟩ := p3
            obtain ⟨hle3, hp3⟩ := readExact_some_elim h3
            have hr3 : r3 = r2.drop SALT_LEN := congrArg Prod.snd hp3
            have hm : MAGIC.length = 5 := rfl
            have hs : SALT_LEN = 32 := rfl
            have ht : TAG_LEN = 16 := rfl
            have hr1len : r1.length = file.length - MAGIC.length := by rw [hr1]; simp
            have hr2len : r2.length = r1.length - 1 := by rw [hr2]; simp
            have hr3len : r3.length = r2.length - SALT_LEN := by rw [hr3]; simp
            dsimp only
            split
            · simp
            · split
              · -- VERSION_2 path
                cases h4 : readExact (8 + TAG_LEN) r3 with
                | none => simp
                | some p4 =>
                  obtain ⟨srec, r4⟩ := p4
                  obtain ⟨hle4, hp4⟩ := readExact_some_elim h4
                  have hr4 : r4 = r3.drop (8 + TAG_LEN) := congrArg Prod.snd hp4
                  have hr4len : r4.length = r3.length - (8 + TAG_LEN) := by rw [hr4]; simp
                  dsimp only
                  split
                  · simp
                  · split
                    · simp
                    · have hcs : checkedSub file.length
                          (MAGIC.length + 1 + SALT_LEN + 8 + TAG_LEN) =
                          some r4.length := by
                        unfold checkedSub
                        rw [if_pos (by omega)]
                        congr 1
                        omega
                      rw [hcs]
                      exact decBlocks_no_panic r4 _ _ []
              · -- VERSION_1 path
                have hcs : checkedSub file.length (MAGIC.length + 1 + SALT_LEN) =
                    some r3.length := by
                  unfold checkedSub
                  rw [if_pos (by omega)]
                  congr 1
                  omega
                rw [hcs]
                exact decBlocks_no_panic r3 _ _ []

/-- C10: decrypt size accounting is safe.  For every secret and every
input file of any length and content, `FileCrypt::decrypt` never panics
on its `usize` subtractions (`size -= header_len` and
`size -= self.buffer.len()`): it always returns normally or with an
error. -/
theorem claim_C10_no_panic (secret file : List Nat) :
    FileCrypt.decrypt secret file ≠ DecResult.panic := by
  unfold FileCrypt.decrypt
  exact decryptWith_no_panic secret file _

theorem decryptWith_eof_magic (secret f buffer : List Nat) (h : f.length < MAGIC.length) :
    FileCrypt.decryptWith secret f buffer = .err .Eof [] := by
  unfold FileCrypt.decryptWith
  dsimp only
  rw [readExact_eq_none h]

theorem decryptWith_eof_version (secret buffer : List Nat) :
    FileCrypt.decryptWith secret MAGIC buffer = .err .Eof [] := by
  unfold FileCrypt.decryptWith
  dsimp only
  rw [readExact_eq_some (le_refl MAGIC.length)]
  dsimp only
  rw [show MAGIC.take MAGIC.length = MAGIC from rfl,
    show MAGIC.drop MAGIC.length = ([] : List Nat) from rfl]
  rw [if_neg (by simp [List.take_left])]
  rw [readExact_eq_none (by simp)]

theorem decryptWith_eof_salt (secret : List Nat) (v : Nat) (rest buffer : List Nat)
    (hv : v = VERSION_1 ∨ v = VERSION_2) (h : rest.length < SALT_LEN) :
    FileCrypt.decryptWith secret (MAGIC ++ (v :: rest)) buffer = .err .Eof [] := by
  unfold FileCrypt.decryptWith
  dsimp only
  rw [readExact_eq_some (by simp)]
  dsimp only
  rw [List.take_left, List.drop_left]
  rw [if_neg (by simp [List.take_left])]
  rw [readExact_eq_some (by simp)]
  dsimp only
  rw [show (v :: rest).take 1 = [v] from rfl, show (v :: rest).drop 1 = rest from rfl]
  rw [if_neg (by
    rcases hv with hv | hv <;> subst hv <;> simp)]
  rw [readExact_eq_none h]

theorem decryptWith_eof_sizerec (secret salt rest buffer : List Nat)
    (hsalt : salt.length = SALT_LEN) (h : rest.length < 8 + TAG_LEN) :
    FileCrypt.decryptWith secret (MAGIC ++ (VERSION_2 :: (salt ++ rest))) buffer =
      .err .Eof [] := by
  unfold FileCrypt.decryptWith
  dsimp only
  rw [readExact_eq_some (by simp)]
  dsimp only
  rw [List.take_left, List.drop_left]
  rw [if_neg (by simp [List.take_left])]
  rw [readExact_eq_some (by simp)]
  dsimp only
  rw [show (VERSION_2 :: (salt ++ rest)).take 1 = [VERSION_2] from rfl,
    show (VERSION_2 :: (salt ++ rest)).drop 1 = salt ++ rest from rfl]
  rw [show ([VERSION_2].headD 0) = VERSION_2 from rfl]
  rw [if_neg (by simp [VERSION_1, VERSION_2])]
  rw [readExact_eq_some (by simp [hsalt])]
  dsimp only
  rw [List.take_left' hsalt, List.drop_left' hsalt]
  rw [List.take_left' hsalt]
  rw [if_neg (by rw [hsalt]; simp)]
  rw [if_pos rfl]
  rw [readExact_eq_none h]

/-- C3 (amended): truncation detection.  Decrypting a proper truncation
`C[:k]` of a V2 container fails before emitting any plaintext: with
`SizeMismatch k (len C)` when the header and SIZE record survive
(`62 <= k`), and with an `UnexpectedEof` I/O error when the truncation
cuts into the header or SIZE record (`k < 62`).  In no case is any
plaintext written before the failure. -/
theorem claim_C3_truncation (secret salt src : List Nat) (k : Nat)
    (hsalt : salt.length = SALT_LEN) (hsize : totalSize src.length < 2 ^ 64)
    (hk : k < totalSize src.length) :
    ∃ container, FileCrypt.encrypt secret salt src = .ok container ∧
      container.length = totalSize src.length ∧
      FileCrypt.decrypt secret (container.take k) =
        .err (if k < 62 then Err.Eof else Err.SizeMismatch k container.length) [] := by
  refine ⟨_, encrypt_eq secret salt src, container_length secret salt src hsalt, ?_⟩
  rw [container_assoc]
  have hclen : (MAGIC ++ (VERSION_2 :: (salt ++ (sizeRec secret salt src.length ++
      bodyOf (Crypto.new secret salt).key (incr_nonce (List.replicate NONCE_LEN 0)) src)))).length =
      totalSize src.length := by
    rw [← container_assoc]
    exact container_length secret salt src hsalt
  have hbody : (bodyOf (Crypto.new secret salt).key
      (incr_nonce (List.replicate NONCE_LEN 0)) src).length = crypto_data_size src.length :=
    bodyOf_length src _ _
  have hszf : (sizeRec secret salt src.length).length = 8 + TAG_LEN :=
    sizeRec_length secret salt src.length
  have ht : TAG_LEN = 16 := rfl
  have hs : SALT_LEN = 32 := rfl
  have hm : MAGIC.length = 5 := rfl
  have htot : totalSize src.length = 62 + crypto_data_size src.length := totalSize_eq _
  unfold FileCrypt.decrypt
  by_cases hk5 : k < 5
  · rw [if_pos (by omega)]
    rw [List.take_append_of_le_length (by omega)]
    exact decryptWith_eof_magic _ _ _ (by simp [hm]; omega)
  · by_cases hk6 : k < 6
    · have hk5' : k = 5 := by omega
      subst hk5'
      rw [if_pos (by omega)]
      rw [List.take_left' (show MAGIC.length = 5 from rfl)]
      exact decryptWith_eof_version _ _
    · rw [List.take_append_eq_append_take,
        List.take_of_length_le (by omega : MAGIC.length ≤ k)]
      have hk5eq : k - MAGIC.length = (k - 6) + 1 := by rw [hm]; omega
      rw [hk5eq, List.take_succ_cons]
      by_cases hk38 : k < 38
      · rw [List.take_append_of_le_length (by omega)]
        rw [if_pos (by omega)]
        exact decryptWith_eof_salt _ _ _ _ (Or.inr rfl)
          (by simp only [List.length_take, hsalt, hs]; omega)
      · rw [List.take_append_eq_append_take,
          List.take_of_length_le (by rw [hsalt]; omega)]
        have hk38eq : k - 6 - salt.length = k - 38 := by rw [hsalt, hs]; omega
        rw [hk38eq]
        by_cases hk62 : k < 62
        · rw [List.take_append_of_le_length (by rw [hszf]; omega)]
          rw [if_pos (by omega)]
          exact decryptWith_eof_sizerec _ _ _ _ hsalt
            (by simp only [List.length_take, hszf]; omega)
        · rw [List.take_append_eq_append_take,
            List.take_of_length_le (by rw [hszf]; omega)]
          have hk62eq : k - 38 - (sizeRec secret salt src.length).length = k - 62 := by
            rw [hszf, ht]
            omega
          rw [hk62eq]
          rw [decryptWith_v2_eq secret salt _ _ _ hsalt hszf (by simp)]
          rw [show sizeRec secret salt src.length =
            sealBytes (Crypto.new secret salt).key (List.replicate NONCE_LEN 0)
              (beBytes 8 (totalSize src.length)) from rfl]
          rw [openBytes_sealBytes]
          dsimp only
          rw [readU64BE_v2BodyBuf _ _ _ _ (by simp)]
          rw [readU64BE_beBytes', Nat.mod_eq_of_lt hsize]
          have hktk : ((bodyOf (Crypto.new secret salt).key
              (incr_nonce (List.replicate NONCE_LEN 0)) src).take (k - 62)).length =
              k - 62 := by
            rw [List.length_take, hbody]
            omega
          rw [hktk]
          rw [if_pos (by omega)]
          rw [if_neg (by omega)]
          have hk62' : 62 + (k - 62) = k := by omega
          rw [hk62']
          have hclen2 : (MAGIC ++ (VERSION_2 :: (salt ++
              (sealBytes (Crypto.new secret salt).key (List.replicate NONCE_LEN 0)
                  (beBytes 8 (totalSize src.length)) ++
                bodyOf (Crypto.new secret salt).key
                  (incr_nonce (List.replicate NONCE_LEN 0)) src)))).length =
              totalSize src.length := hclen
          rw [hclen2]

theorem claim_C3_witness :
    ∃ container, FileCrypt.encrypt [1] (List.replicate 32 0) [9, 9] = .ok container ∧
      container.length = totalSize 2 ∧
      FileCrypt.decrypt [1] (container.take 70) =
        .err (if 70 < 62 then Err.Eof else Err.SizeMismatch 70 container.length) [] :=
  claim_C3_truncation [1] (List.replicate 32 0) [9, 9] 70 (by decide) (by decide) (by decide)

/-- C3 counterexample to the claim as stated: truncating a genuine V2
container to 10 bytes (inside the header) makes `FileCrypt::decrypt`
fail with an `UnexpectedEof` I/O error, which is neither `SizeMismatch`
nor `Open`. -/
theorem claim_C3_counterexample :
    ∃ container, FileCrypt.encrypt [] (List.replicate 32 0) [] = .ok container ∧
      10 < container.length ∧
      FileCrypt.decrypt [] (container.take 10) = .err .Eof [] ∧
      Err.Eof ≠ Err.Open ∧ ∀ a d : Nat, Err.Eof ≠ Err.SizeMismatch a d := by
  refine ⟨_, encrypt_eq [] (List.replicate 32 0) [], ?_, ?_, by decide,
    fun a d h => Err.noConfusion h⟩
  · rw [container_length [] (List.replicate 32 0) [] (by decide)]
    decide
  · rw [container_assoc]
    rw [List.take_append_eq_append_take,
      List.take_of_length_le (by decide : MAGIC.length ≤ 10)]
    rw [show (10 : Nat) - MAGIC.length = 4 + 1 from rfl, List.take_succ_cons]
    rw [List.take_append_of_le_length (by simp)]
    unfold FileCrypt.decrypt
    exact decryptWith_eof_salt _ _ _ _ (Or.inr rfl) (by simp [SALT_LEN])

@[simp] theorem flipAt_length (l : List Nat) (j i : Nat) :
    (flipAt l j i).length = l.length := by
  simp [flipAt]

theorem flipAt_getD {l : List Nat} {j : Nat} (i : Nat) (h : j < l.length) :
    (flipAt l j i).getD j 0 = l.getD j 0 ^^^ 2 ^ i := by
  unfold flipAt
  exact getD_set_self l j h _

theorem flipAt_ne {l : List Nat} {j : Nat} (i : Nat) (h : j < l.length) :
    flipAt l j i ≠ l := by
  intro hc
  have h1 := flipAt_getD i h
  rw [hc] at h1
  exact xor_pow_ne _ _ (by positivity) h1.symm

theorem flipAt_append_left {a : List Nat} (b : List Nat) {j : Nat} (i : Nat)
    (h : j < a.length) :
    flipAt (a ++ b) j i = flipAt a j i ++ b := by
  unfold flipAt
  rw [List.getD_append a b 0 j h, List.set_append_left j _ h]

theorem flipAt_append_right {a : List Nat} (b : List Nat) {j : Nat} (i : Nat)
    (h : a.length ≤ j) :
    flipAt (a ++ b) j i = a ++ flipAt b (j - a.length) i := by
  unfold flipAt
  rw [List.getD_append_right a b 0 j h, List.set_append_right j _ h]

theorem flipAt_cons_succ (v : Nat) (t : List Nat) (j i : Nat) :
    flipAt (v :: t) (j + 1) i = v :: flipAt t j i := by
  unfold flipAt
  rfl

theorem flipAt_cons_zero (v : Nat) (t : List Nat) (i : Nat) :
    flipAt (v :: t) 0 i = (v ^^^ 2 ^ i) :: t := by
  unfold flipAt
  rfl

/-- Tampering with any byte of a genuine seal output makes `open` fail. -/
theorem openBytes_flip (key nonce p : List Nat) (j i : Nat)
    (hj : j < (sealBytes key nonce p).length) :
    openBytes key nonce (flipAt (sealBytes key nonce p) j i) = none := by
  have hne : flipAt (sealBytes key nonce p) j i ≠ sealBytes key nonce p := flipAt_ne i hj
  cases hopen : openBytes key nonce (flipAt (sealBytes key nonce p) j i) with
  | none => rfl
  | some p' =>
    exfalso
    obtain ⟨hseal, hp', hlen16⟩ := openBytes_some hopen
    have hlen : (flipAt (sealBytes key nonce p) j i).length = p.length + TAG_LEN := by
      rw [flipAt_length, sealBytes_length]
    have hp'len : p'.length = p.length := by
      rw [hp']
      simp only [List.length_take, hlen]
      have ht : TAG_LEN = 16 := rfl
      omega
    by_cases hcase : j < p.length
    · have hdropeq : (flipAt (sealBytes key nonce p) j i).drop p.length =
          (sealBytes key nonce p).drop p.length := by
        unfold flipAt
        exact drop_set_of_lt _ j p.length _ hcase
      have h1 : (flipAt (sealBytes key nonce p) j i).drop p.length =
          Nat.pair (encodeL key) (Nat.pair (encodeL nonce) (encodeL p')) ::
            List.replicate (TAG_LEN - 1) 0 := by
        conv_lhs => rw [hseal]
        rw [← hp'len]
        exact sealBytes_tag_head key nonce p'
      rw [hdropeq, sealBytes_tag_head] at h1
      have hhead := List.head_eq_of_cons_eq h1
      have hpair := Nat.pair_eq_pair.mp (Nat.pair_eq_pair.mp hhead).2
      have hpp : p = p' := encodeL_inj hpair.2
      apply hne
      rw [hseal, ← hpp]
    · push_neg at hcase
      have htakeeq : (flipAt (sealBytes key nonce p) j i).take p.length =
          (sealBytes key nonce p).take p.length := by
        unfold flipAt
        exact take_set_of_le _ j p.length _ hcase
      have h2 : (sealBytes key nonce p).take p.length = p := by
        unfold sealBytes
        exact List.take_left _ _
      have h3 : (flipAt (sealBytes key nonce p) j i).take p.length = p' := by
        conv_lhs => rw [hseal]
        rw [← hp'len]
        unfold sealBytes
        exact List.take_left _ _
      have hpp : p = p' := by rw [← h2, ← htakeeq, h3]
      apply hne
      rw [hseal, ← hpp]

/-- Opening a genuine seal output under a different key fails. -/
theorem openBytes_wrong_key {key key' : List Nat} (nonce p : List Nat) (hne : key' ≠ key) :
    openBytes key' nonce (sealBytes key nonce p) = none := by
  cases hopen : openBytes key' nonce (sealBytes key nonce p) with
  | none => rfl
  | some p' =>
    exfalso
    obtain ⟨hseal, hp', _⟩ := openBytes_some hopen
    have hp'len : p'.length = p.length := by
      rw [hp']
      simp only [List.length_take, sealBytes_length]
      have ht : TAG_LEN = 16 := rfl
      omega
    obtain ⟨hk, _, _⟩ := sealBytes_inj hp'len (hseal.symm)
    exact hne hk

theorem version_flip_unsupported (i : Nat) :
    VERSION_2 ^^^ 2 ^ i ≠ VERSION_1 ∧ VERSION_2 ^^^ 2 ^ i ≠ VERSION_2 := by
  constructor
  · intro h
    have h2 : (2 : Nat) ^ i = VERSION_2 ^^^ VERSION_1 := by
      have := congrArg (fun x => VERSION_2 ^^^ x) h
      simp only at this
      rw [← Nat.xor_assoc, Nat.xor_self, Nat.zero_xor] at this
      exact this
    have h3 : VERSION_2 ^^^ VERSION_1 = 3 := by decide
    rw [h3] at h2
    rcases i with _ | _ | i
    · simp at h2
    · simp at h2
    · rw [Nat.pow_succ, Nat.pow_succ] at h2
      omega
  · intro h
    exact xor_pow_ne VERSION_2 (2 ^ i) (by positivity) h

theorem decryptWith_magic_mismatch (secret m rest buffer : List Nat)
    (hm : m.length = MAGIC.length) (hne : m ≠ MAGIC) :
    FileCrypt.decryptWith secret (m ++ rest) buffer = .err .MagicNotMatch [] := by
  unfold FileCrypt.decryptWith
  dsimp only
  rw [readExact_eq_some (by rw [List.length_append, hm]; omega)]
  dsimp only
  rw [List.take_left' hm, List.drop_left' hm]
  rw [if_pos (by rw [List.take_left' hm]; exact hne)]

theorem decryptWith_version_unsupported (secret : List Nat) (v : Nat) (rest buffer : List Nat)
    (h1 : v ≠ VERSION_1) (h2 : v ≠ VERSION_2) :
    FileCrypt.decryptWith secret (MAGIC ++ (v :: rest)) buffer =
      .err (.VersionNotSupport v) [] := by
  unfold FileCrypt.decryptWith
  dsimp only
  rw [readExact_eq_some (by simp)]
  dsimp only
  rw [List.take_left, List.drop_left]
  rw [if_neg (by simp [List.take_left])]
  rw [readExact_eq_some (by simp)]
  dsimp only
  rw [show (v :: rest).take 1 = [v] from rfl, show (v :: rest).drop 1 = rest from rfl]
  rw [if_pos (by exact ⟨h1, h2⟩)]
  rfl

theorem decBlocks_flip_aux (n : Nat) :
    ∀ (src : List Nat) (c : Crypto) (bufD out : List Nat) (q i : Nat),
      src.length ≤ n → bufD.length = BLOCK_SIZE + TAG_LEN →
      q < (bodyOf c.key c.open_nonce src).length →
      ∃ out', decBlocks c bufD (flipAt (bodyOf c.key c.open_nonce src) q i)
          (flipAt (bodyOf c.key c.open_nonce src) q i).length out = .err .Open out' := by
  have ht : TAG_LEN = 16 := rfl
  have hb : BLOCK_SIZE = 131072 := rfl
  induction n with
  | zero =>
    intro src c bufD out q i hle hbuf hq
    have hnil : src = [] := List.length_eq_zero.mp (by omega)
    subst hnil
    rw [bodyOf_nil] at hq
    simp at hq
  | succ n ih =>
    intro src c bufD out q i hle hbuf hq
    by_cases hbs : BLOCK_SIZE ≤ src.length
    · have htklen : (src.take BLOCK_SIZE).length = BLOCK_SIZE := by
        simp [Nat.min_eq_left hbs]
      have hflen : (sealBytes c.key c.open_nonce (src.take BLOCK_SIZE)).length =
          BLOCK_SIZE + TAG_LEN := by
        rw [sealBytes_length, htklen]
      rw [bodyOf_big hbs] at hq ⊢
      by_cases hqf : q < BLOCK_SIZE + TAG_LEN
      · rw [flipAt_append_left _ i (by rw [hflen]; exact hqf)]
        rw [decBlocks]
        rw [dif_pos (by
          rw [List.length_append, flipAt_length, hflen, hbuf]
          omega)]
        have htk : (flipAt (sealBytes c.key c.open_nonce (src.take BLOCK_SIZE)) q i ++
            bodyOf c.key (incr_nonce c.open_nonce) (src.drop BLOCK_SIZE)).take bufD.length =
            flipAt (sealBytes c.key c.open_nonce (src.take BLOCK_SIZE)) q i :=
          List.take_left' (by rw [flipAt_length, hflen, hbuf])
        rw [htk, List.drop_length, List.append_nil]
        rw [Crypto.decrypt_eq_err (openBytes_flip _ _ _ _ _ (by rw [hflen]; exact hqf))]
        exact ⟨out, rfl⟩
      · push_neg at hqf
        rw [flipAt_append_right _ i (by rw [hflen]; exact hqf)]
        rw [hflen]
        rw [decBlocks]
        rw [dif_pos (by
          rw [List.length_append, flipAt_length, hflen, hbuf]
          omega)]
        have htk : (sealBytes c.key c.open_nonce (src.take BLOCK_SIZE) ++
            flipAt (bodyOf c.key (incr_nonce c.open_nonce) (src.drop BLOCK_SIZE))
              (q - (BLOCK_SIZE + TAG_LEN)) i).take bufD.length =
            sealBytes c.key c.open_nonce (src.take BLOCK_SIZE) :=
          List.take_left' (by rw [hflen, hbuf])
        rw [htk, List.drop_length, List.append_nil]
        rw [Crypto.decrypt_eq_ok (openBytes_sealBytes _ _ _)]
        dsimp only
        rw [List.take_left]
        have hdr : (sealBytes c.key c.open_nonce (src.take BLOCK_SIZE) ++
            flipAt (bodyOf c.key (incr_nonce c.open_nonce) (src.drop BLOCK_SIZE))
              (q - (BLOCK_SIZE + TAG_LEN)) i).drop bufD.length =
            flipAt (bodyOf c.key (incr_nonce c.open_nonce) (src.drop BLOCK_SIZE))
              (q - (BLOCK_SIZE + TAG_LEN)) i :=
          List.drop_left' (by rw [hflen, hbuf])
        have hb2len : (src.take BLOCK_SIZE ++
            (sealBytes c.key c.open_nonce (src.take BLOCK_SIZE)).drop
              (src.take BLOCK_SIZE).length).length = BLOCK_SIZE + TAG_LEN := by
          rw [List.length_append, List.length_drop, sealBytes_length, htklen]
          omega
        have hcs : checkedSub (sealBytes c.key c.open_nonce (src.take BLOCK_SIZE) ++
            flipAt (bodyOf c.key (incr_nonce c.open_nonce) (src.drop BLOCK_SIZE))
              (q - (BLOCK_SIZE + TAG_LEN)) i).length
            (src.take BLOCK_SIZE ++
              (sealBytes c.key c.open_nonce (src.take BLOCK_SIZE)).drop
                (src.take BLOCK_SIZE).length).length =
            some (flipAt (bodyOf c.key (incr_nonce c.open_nonce) (src.drop BLOCK_SIZE))
              (q - (BLOCK_SIZE + TAG_LEN)) i).length := by
          rw [hb2len, List.length_append, hflen]
          unfold checkedSub
          rw [if_pos (by omega)]
          rw [Nat.add_sub_cancel_left]
        rw [hcs]
        dsimp only
        rw [hdr]
        have ihx := ih (src.drop BLOCK_SIZE)
          ({ c with open_nonce := incr_nonce c.open_nonce })
          (src.take BLOCK_SIZE ++
            (sealBytes c.key c.open_nonce (src.take BLOCK_SIZE)).drop
              (src.take BLOCK_SIZE).length)
          (out ++ src.take BLOCK_SIZE)
          (q - (BLOCK_SIZE + TAG_LEN)) i
          (by simp only [List.length_drop]; omega)
          hb2len
          (by
            dsimp only
            rw [List.length_append, hflen] at hq
            omega)
        dsimp only at ihx
        obtain ⟨out', hout'⟩ := ihx
        exact ⟨out', hout'⟩
    · push_neg at hbs
      by_cases h0 : src.length = 0
      · have hnil : src = [] := List.length_eq_zero.mp h0
        subst hnil
        rw [bodyOf_nil] at hq
        simp at hq
      · rw [bodyOf_small hbs h0] at hq ⊢
        rw [decBlocks]
        rw [dif_neg (by
          rw [flipAt_length, sealBytes_length, hbuf]
          omega)]
        dsimp only
        rw [if_pos (by rw [flipAt_length, sealBytes_length]; omega)]
        have htk : (flipAt (sealBytes c.key c.open_nonce src) q i ++
            bufD.drop (flipAt (sealBytes c.key c.open_nonce src) q i).length).take
            (flipAt (sealBytes c.key c.open_nonce src) q i).length =
            flipAt (sealBytes c.key c.open_nonce src) q i :=
          List.take_left _ _
        rw [htk]
        rw [Crypto.decrypt_eq_err (openBytes_flip _ _ _ _ _ (by
          rw [sealBytes_length] at hq ⊢
          exact hq))]
        exact ⟨out, rfl⟩

theorem decBlocks_flip (src : List Nat) (c : Crypto) (bufD out : List Nat) (q i : Nat)
    (hbuf : bufD.length = BLOCK_SIZE + TAG_LEN)
    (hq : q < (bodyOf c.key c.open_nonce src).length) :
    ∃ out', decBlocks c bufD (flipAt (bodyOf c.key c.open_nonce src) q i)
        (flipAt (bodyOf c.key c.open_nonce src) q i).length out = .err .Open out' :=
  decBlocks_flip_aux src.length src c bufD out q i le_rfl hbuf hq

/-- C4: tamper detection.  Flipping any single bit of any byte of a
genuine V2 container makes `FileCrypt::decrypt` under the correct secret
fail — with `Open` (crypto decrypt error) or a structural error (magic
mismatch, unsupported version) — and never complete successfully with
plaintext different from the original. -/
theorem claim_C4_tamper (secret salt src : List Nat) (j i : Nat)
    (hsalt : salt.length = SALT_LEN) (hsize : totalSize src.length < 2 ^ 64)
    (hj : j < totalSize src.length) :
    ∃ container, FileCrypt.encrypt secret salt src = .ok container ∧
      container.length = totalSize src.length ∧
      ∃ e written, FileCrypt.decrypt secret (flipAt container j i) = .err e written ∧
        (e = .Open ∨ e = .MagicNotMatch ∨ ∃ v, e = .VersionNotSupport v) := by
  refine ⟨_, encrypt_eq secret salt src, container_length secret salt src hsalt, ?_⟩
  rw [container_assoc]
  have hszf : (sizeRec secret salt src.length).length = 8 + TAG_LEN :=
    sizeRec_length secret salt src.length
  have hbody : (bodyOf (Crypto.new secret salt).key
      (incr_nonce (List.replicate NONCE_LEN 0)) src).length = crypto_data_size src.length :=
    bodyOf_length src _ _
  have ht : TAG_LEN = 16 := rfl
  have hs : SALT_LEN = 32 := rfl
  have hm : MAGIC.length = 5 := rfl
  have htot : totalSize src.length = 62 + crypto_data_size src.length := totalSize_eq _
  unfold FileCrypt.decrypt
  by_cases hj5 : j < 5
  · rw [flipAt_append_left _ i (by rw [hm]; exact hj5)]
    exact ⟨.MagicNotMatch, [],
      decryptWith_magic_mismatch _ _ _ _ (by rw [flipAt_length])
        (flipAt_ne i (by rw [hm]; exact hj5)),
      Or.inr (Or.inl rfl)⟩
  · by_cases hj6 : j < 6
    · have hj5' : j = 5 := by omega
      subst hj5'
      rw [flipAt_append_right _ i (by rw [hm])]
      rw [show (5 : Nat) - MAGIC.length = 0 from rfl, flipAt_cons_zero]
      obtain ⟨hv1, hv2⟩ := version_flip_unsupported i
      exact ⟨.VersionNotSupport (VERSION_2 ^^^ 2 ^ i), [],
        decryptWith_version_unsupported _ _ _ _ hv1 hv2,
        Or.inr (Or.inr ⟨_, rfl⟩)⟩
    · rw [flipAt_append_right _ i (by rw [hm]; omega)]
      have hsub1 : j - MAGIC.length = (j - 6) + 1 := by rw [hm]; omega
      rw [hsub1, flipAt_cons_succ]
      by_cases hj38 : j < 38
      · rw [flipAt_append_left _ i (by rw [hsalt, hs]; omega)]
        rw [decryptWith_v2_eq secret _ _ _ _ (by rw [flipAt_length, hsalt]) hszf (by simp)]
        have hkne : (Crypto.new secret salt).key ≠
            (Crypto.new secret (flipAt salt (j - 6) i)).key := by
          intro hk
          have := extract_and_expand_salt_inj hk
          exact flipAt_ne i (by rw [hsalt, hs]; omega) this.symm
        rw [show sizeRec secret salt src.length =
          sealBytes (Crypto.new secret salt).key (List.replicate NONCE_LEN 0)
            (beBytes 8 (totalSize src.length)) from rfl]
        rw [openBytes_wrong_key _ _ (fun h => hkne h.symm)]
        exact ⟨.Open, [], rfl, Or.inl rfl⟩
      · rw [flipAt_append_right _ i (by rw [hsalt, hs]; omega)]
        have hsub2 : j - 6 - salt.length = j - 38 := by rw [hsalt, hs]; omega
        rw [hsub2]
        by_cases hj62 : j < 62
        · rw [flipAt_append_left _ i (by rw [hszf, ht]; omega)]
          rw [decryptWith_v2_eq secret _ _ _ _ hsalt (by rw [flipAt_length, hszf]) (by simp)]
          rw [show sizeRec secret salt src.length =
            sealBytes (Crypto.new secret salt).key (List.replicate NONCE_LEN 0)
              (beBytes 8 (totalSize src.length)) from rfl]
          rw [openBytes_flip _ _ _ _ _ (by
            rw [sealBytes_length, beBytes_length, ht]
            omega)]
          exact ⟨.Open, [], rfl, Or.inl rfl⟩
        · rw [flipAt_append_right _ i (by rw [hszf, ht]; omega)]
          have hsub3 : j - 38 - (sizeRec secret salt src.length).length = j - 62 := by
            rw [hszf, ht]
            omega
          rw [hsub3]
          rw [decryptWith_v2_eq secret _ _ _ _ hsalt hszf (by simp)]
          rw [show sizeRec secret salt src.length =
            sealBytes (Crypto.new secret salt).key (List.replicate NONCE_LEN 0)
              (beBytes 8 (totalSize src.length)) from rfl]
          rw [openBytes_sealBytes]
          dsimp only
          rw [readU64BE_v2BodyBuf _ _ _ _ (by simp)]
          rw [readU64BE_beBytes', Nat.mod_eq_of_lt hsize]
          rw [if_neg (by
            rw [flipAt_length, hbody]
            omega)]
          have hflip := decBlocks_flip src
            ({ Crypto.new secret salt with
                open_nonce := incr_nonce (List.replicate NONCE_LEN 0) })
            (v2BodyBuf salt (sealBytes (Crypto.new secret salt).key
                (List.replicate NONCE_LEN 0) (beBytes 8 (totalSize src.length)))
              (List.replicate (BLOCK_SIZE + TAG_LEN) 0) (beBytes 8 (totalSize src.length)))
            [] (j - 62) i
            (v2BodyBuf_length _ _ _ _ hsalt
              (by rw [sealBytes_length, beBytes_length]) (by simp) (by simp))
            (by
              dsimp only
              rw [hbody]
              omega)
          dsimp only at hflip
          obtain ⟨out', hout'⟩ := hflip
          exact ⟨.Open, out', hout', Or.inl rfl⟩

theorem claim_C4_witness :
    ∃ container, FileCrypt.encrypt [1] (List.replicate 32 0) [5] = .ok container ∧
      container.length = totalSize 1 ∧
      ∃ e written, FileCrypt.decrypt [1] (flipAt container 70 3) = .err e written ∧
        (e = .Open ∨ e = .MagicNotMatch ∨ ∃ v, e = .VersionNotSupport v) :=
  claim_C4_tamper [1] (List.replicate 32 0) [5] 70 3 (by decide) (by decide) (by decide)

end Eakio
